import Mathlib

/-!
Formal verification development for the Pj-OGUN discrete-event logistics
simulation engine (`src/pj_ogun/simulation/engine.py` and the data model in
`src/pj_ogun/models` / `src/pj_ogun/simulation/events.py`).

The Python code is shallowly embedded: pure functions become Lean functions,
the stateful engine becomes explicit state passing, Python `float` quantities
that only undergo field arithmetic are modelled by `ℚ` (with `WithTop ℚ` for
the `float("inf")` sentinel), `int` by `Int`, fallible lookups by `Option`.
The dispatch queues use a faithful model of CPython `heapq`
(`heappush` / `heappop` with `_siftdown` / `_siftup`), since the engine pushes
`dataclass(order=True)` request objects whose only compared field is
`priority` (every other field is declared `compare=False`).
-/

set_option linter.unusedSectionVars false

namespace PjOgun

/-! ### CPython heapq, parameterised by the comparison key

`engine.py` stores `CasualtyRequest` / `RecoveryRequest` / `AmmoDeliveryRequest`
in plain lists manipulated exclusively through `heapq.heappush` and
`heapq.heappop`.  The request dataclasses are `@dataclass(order=True)` with
every field except `priority` marked `compare=False`, so `a < b` is exactly
`a.priority < b.priority`.  The functions below transcribe the pure-Python
reference implementation of CPython `heapq` (`_siftdown`, `_siftup`,
`heappush`, `heappop`), which is also the documented semantics of the C
accelerator.  Lists index with `getD` (all accesses are in range along the
code paths used, mirroring Python indexing). -/

variable {α : Type} [Inhabited α]

/-- The `dataclass(order=True)` comparison used by the dispatch queues:
only the `priority` field (extracted by `key`) participates. -/
def hLt (key : α → Int) (a b : α) : Bool :=
  key a < key b

/-- Loop of CPython `heapq._siftdown(heap, startpos, pos)`: bubble the hole at
`pos` toward `startpos` while `newitem` compares less than the parent,
shifting parents down.  Returns the updated array and the final hole
position (the final `heap[pos] = newitem` write is done by `siftdown`).
The `fuel` argument is only a structural-termination device: the hole index
strictly decreases each iteration, so any fuel at least `pos` makes the
function run the loop to its real exit; `siftdown` passes `pos` itself. -/
def siftdownAux (key : α → Int) :
    Nat → List α → Nat → Nat → α → List α × Nat
  | 0, heap, _, pos, _ => (heap, pos)
  | fuel + 1, heap, startpos, pos, newitem =>
    if startpos < pos then
      let parentpos := (pos - 1) / 2
      let parent := heap.getD parentpos newitem
      if hLt key newitem parent then
        siftdownAux key fuel (heap.set pos parent) startpos parentpos newitem
      else
        (heap, pos)
    else
      (heap, pos)

/-- CPython `heapq._siftdown(heap, startpos, pos)`. -/
def siftdown (key : α → Int) (heap : List α) (startpos pos : Nat) : List α :=
  let newitem := heap.getD pos default
  let hp := siftdownAux key pos heap startpos pos newitem
  hp.1.set hp.2 newitem

/-- Loop of CPython `heapq._siftup(heap, pos)`: move the hole at `pos` down to
a leaf, repeatedly shifting the smaller child up (the right child on ties,
because the code tests `not heap[childpos] < heap[rightpos]`).  Returns the
updated array and the leaf position of the hole.  `fuel` is again only a
structural-termination device; the hole index strictly increases below
`endpos`, so fuel `endpos` (passed by `siftup`) runs the loop to its exit. -/
def siftupAux (key : α → Int) :
    Nat → List α → Nat → Nat → List α × Nat
  | 0, heap, pos, _ => (heap, pos)
  | fuel + 1, heap, pos, endpos =>
    let childpos := 2 * pos + 1
    if childpos < endpos then
      let rightpos := childpos + 1
      let cpos :=
        if rightpos < endpos &&
            !(hLt key (heap.getD childpos default) (heap.getD rightpos default)) then
          rightpos
        else
          childpos
      siftupAux key fuel (heap.set pos (heap.getD cpos default)) cpos endpos
    else
      (heap, pos)

/-- CPython `heapq._siftup(heap, pos)`: after the hole reaches a leaf the saved
`newitem` is written there and `_siftdown` restores the heap upward. -/
def siftup (key : α → Int) (heap : List α) (pos : Nat) : List α :=
  let endpos := heap.length
  let startpos := pos
  let newitem := heap.getD pos default
  let hp := siftupAux key endpos heap pos endpos
  siftdown key (hp.1.set hp.2 newitem) startpos hp.2

/-- CPython `heapq.heappush(heap, item)`: append then `_siftdown` from the new
last index. -/
def heappush (key : α → Int) (heap : List α) (item : α) : List α :=
  siftdown key (heap ++ [item]) 0 heap.length

/-- CPython `heapq.heappop(heap)`: pop the last element; if the heap is still
non-empty, the root is returned and the last element is sifted down from the
root.  `none` models the `IndexError` on an empty heap (never hit by the
engine, which guards every pop with a non-emptiness check). -/
def heappop (key : α → Int) (heap : List α) : Option (α × List α) :=
  match heap with
  | [] => none
  | _ :: _ =>
    let lastelt := heap.getD (heap.length - 1) default
    let rest := heap.dropLast
    match rest with
    | [] => some (lastelt, [])
    | _ :: _ => some (rest.getD 0 default, siftup key (rest.set 0 lastelt) 0)

/-- Push a whole list in order (left to right) onto a heap, mirroring a
sequence of `heapq.heappush` calls. -/
def pushAll (key : α → Int) (heap : List α) (items : List α) : List α :=
  items.foldl (fun h x => heappush key h x) heap

/-- Pop up to `n` items, collecting them in pop order: the observable dispatch
order of a queue drained by vehicle processes. -/
def drainHeap (key : α → Int) : Nat → List α → List α
  | 0, _ => []
  | n + 1, heap =>
    match heappop key heap with
    | none => []
    | some (r, rest) => r :: drainHeap key n rest

/-! ### The dispatch request records (`engine.py` lines 66-96)

The payload fields are `compare=False` in the source; entity payloads are
represented by their string IDs (`Casualty.id` etc.), which is all the queue
logic inspects. -/

/-- `CasualtyRequest` (engine.py 66-73): ordered by `priority` only. -/
structure CasualtyRequest where
  priority : Int
  time_requested : ℚ
  casualty : String
  location : String
deriving DecidableEq, Repr

instance : Inhabited CasualtyRequest :=
  ⟨⟨0, 0, "", ""⟩⟩

/-- `RecoveryRequest` (engine.py 76-84): ordered by `priority` only. -/
structure RecoveryRequest where
  priority : Int
  time_requested : ℚ
  breakdown : String
  location : String
  vehicle_class : String
deriving DecidableEq, Repr

instance : Inhabited RecoveryRequest :=
  ⟨⟨0, 0, "", "", ""⟩⟩

/-- `AmmoDeliveryRequest` (engine.py 87-95): ordered by `priority` only. -/
structure AmmoDeliveryRequest where
  priority : Int
  time_requested : ℚ
  ammo_request : String
  location : String
  quantity : Int
deriving DecidableEq, Repr

instance : Inhabited AmmoDeliveryRequest :=
  ⟨⟨0, 0, "", "", 0⟩⟩

/-- Comparison key of `CasualtyRequest` (the only compared dataclass field). -/
def casKey (r : CasualtyRequest) : Int := r.priority

/-- Comparison key of `RecoveryRequest`. -/
def recKey (r : RecoveryRequest) : Int := r.priority

/-- Comparison key of `AmmoDeliveryRequest`. -/
def ammoKey (r : AmmoDeliveryRequest) : Int := r.priority

/-! ### Recovery-compatibility scan (`engine.py` 715-749 and 1095-1098) -/

/-- `_can_tow`s `class_order` dict lookup with default `0`
(`class_order.get(cls, 0)`): unknown class strings map to 0. -/
def classOrder (cls : String) : Nat :=
  if cls = "light" then 0
  else if cls = "medium" then 1
  else if cls = "heavy" then 2
  else 0

/-- `_can_tow(recovery_class, broken_class)` (engine.py 1095-1098):
`class_order.get(recovery_class, 0) >= class_order.get(broken_class, 0)`. -/
def canTow (recovery_class broken_class : String) : Bool :=
  classOrder broken_class ≤ classOrder recovery_class

/-- The scan loop of `_recovery_process` (engine.py 732-741): repeatedly
`heapq.heappop` the recovery queue; stop at the first request whose vehicle
class the given tow class can tow, buffering incompatible requests in
`temp_queue`.  The fuel argument is a termination device; it is always called
with the queue length, which bounds the number of pops. -/
def findSuitableAux (tow : String) :
    Nat → List RecoveryRequest → List RecoveryRequest →
    Option RecoveryRequest × List RecoveryRequest × List RecoveryRequest
  | 0, queue, temp => (none, queue, temp)
  | fuel + 1, queue, temp =>
    match heappop recKey queue with
    | none => (none, queue, temp)
    | some (req, rest) =>
      if canTow tow req.vehicle_class then (some req, rest, temp)
      else findSuitableAux tow fuel rest (temp ++ [req])

/-- The full compatibility-filtered pop of `_recovery_process`
(engine.py 731-745): scan for a towable request, then push the skipped
requests back with `heapq.heappush`.  Returns the selected request (if any)
and the resulting queue. -/
def findSuitable (tow : String) (queue : List RecoveryRequest) :
    Option RecoveryRequest × List RecoveryRequest :=
  let r := findSuitableAux tow queue.length queue []
  (r.1, r.2.2.foldl (fun h req => heappush recKey h req) r.2.1)

/-! ### Network graph and routing (`engine.py` 195-222 and 1266-1365)

`_build_graph` adds one undirected `networkx` edge per scenario edge, weighted
by `effective_km = distance_km * terrain_factor`.  `_calculate_travel_time`
asks `nx.shortest_path(..., weight="effective_km")` for a minimum-weight path
and sums `effective_km` along it (which equals the shortest-path distance),
then converts to minutes; `nx.NetworkXNoPath` becomes `float("inf")`.  The
shortest-path distance is embedded as the minimum over all duplicate-free
paths, enumerated with fuel `number of endpoint names + 1`, which bounds the
length of any duplicate-free path. -/

/-- A scenario edge (the fields of `models/network.py` `Edge` that routing
reads; `from`/`to` are the serialisation aliases of `from_node`/`to_node`). -/
structure EdgeE where
  from_node : String
  to_node : String
  distance_km : ℚ
  terrain_factor : ℚ
deriving DecidableEq, Repr

/-- Effective distance of an edge (engine.py 211):
`edge.distance_km * edge.properties.terrain_factor`. -/
def effectiveKm (e : EdgeE) : ℚ :=
  e.distance_km * e.terrain_factor

/-- The built graph: each entry is an undirected edge with its effective
weight (`_build_graph`, engine.py 195-222). -/
def buildGraph (edges : List EdgeE) : List (String × String × ℚ) :=
  edges.map (fun e => (e.from_node, e.to_node, effectiveKm e))

/-- Whether a graph entry connects `u` and `v` (undirected). -/
def edgeConnects (u v : String) (t : String × String × ℚ) : Bool :=
  (t.1 == u && t.2.1 == v) || (t.1 == v && t.2.1 == u)

/-- Adjacency weight between `u` and `v`.  With duplicate scenario edges
`networkx.add_edge` overwrites the stored attributes, so the last matching
edge wins; hence the reversed search. -/
def adjW (g : List (String × String × ℚ)) (u v : String) : Option ℚ :=
  (g.reverse.find? (edgeConnects u v)).map (fun t => t.2.2)

/-- Every node name mentioned by the graph (`networkx` materialises both
endpoints of every added edge). -/
def gNodes (g : List (String × String × ℚ)) : List String :=
  g.map (fun t => t.1) ++ g.map (fun t => t.2.1)

/-- Neighbour list of `u` with edge weights. -/
def nbrs (g : List (String × String × ℚ)) (u : String) : List (String × ℚ) :=
  (gNodes g).dedup.filterMap (fun w => (adjW g u w).map (fun d => (w, d)))

/-- Total weights of all duplicate-free paths from `u` to `v` whose nodes
avoid `visited` (which always contains `u`), with at most `fuel` nodes. -/
def weightsTo (g : List (String × String × ℚ)) :
    Nat → String → String → List String → List ℚ
  | 0, _, _, _ => []
  | fuel + 1, u, v, visited =>
    if u = v then [0]
    else
      ((nbrs g u).filter (fun p => !(visited.contains p.1))).flatMap
        (fun p => (weightsTo g fuel p.1 v (p.1 :: visited)).map (fun r => p.2 + r))

/-- Minimum of a list of rationals (`none` on the empty list). -/
def minQ : List ℚ → Option ℚ
  | [] => none
  | x :: xs =>
    match minQ xs with
    | none => some x
    | some m => some (min x m)

/-- Shortest-path distance between two nodes by effective weight: the
minimum total weight over all duplicate-free connecting paths (`none` when no
path exists).  This is the documented result of
`nx.shortest_path(_length)(..., weight="effective_km")`. -/
def spDist (g : List (String × String × ℚ)) (u v : String) : Option ℚ :=
  minQ (weightsTo g ((gNodes g).dedup.length + 1) u v [u])

/-- `_calculate_travel_time(from_node, to_node, speed_kmh)`
(engine.py 1266-1297): 0 for same-node queries, otherwise shortest-path
distance / speed * 60 minutes, with `⊤` as the `float("inf")` sentinel for
unreachable pairs. -/
def calcTravelTime (g : List (String × String × ℚ))
    (from_node to_node : String) (speed_kmh : ℚ) : WithTop ℚ :=
  if from_node = to_node then (0 : WithTop ℚ)
  else
    match spDist g from_node to_node with
    | some d => (some (d / speed_kmh * 60) : WithTop ℚ)
    | none => ⊤

/-- Specification-side path predicate: `PW g v u vis p w` states that `p` is
a duplicate-free path from `u` to `v` in graph `g` whose nodes avoid `vis`
(each node is added to `vis` as the path extends), with total effective
weight `w`.  `refl` is the one-node path; `cons` prepends an edge. -/
inductive PW (g : List (String × String × ℚ)) (v : String) :
    String → List String → List String → ℚ → Prop
  | refl (vis : List String) : PW g v v vis [v] 0
  | cons {u w : String} {vis p : List String} {d r : ℚ} :
      adjW g u w = some d → w ∉ vis → u ≠ v →
      PW g v w (w :: vis) p r → PW g v u vis (u :: p) (d + r)

/-! ### Nodes and nearest-facility queries (`engine.py` 1299-1365) -/

/-- The node fields the engine reads (`models/network.py` `Node` with its
`NodeProperties`/`NodeCapacity` sub-records flattened to the fields used by
the simulation): functional type string (the `NodeType` enum value),
treatment time/slots for medical nodes. -/
structure MNode where
  id : String
  ntype : String
  treatment_time_mins : Option ℚ
  treatment_slots : Option Nat
deriving DecidableEq, Repr

/-- The common shape of `_find_nearest_medical` / `_find_nearest_workshop` /
`_find_nearest_ammo_point` (engine.py 1299-1365): scan `scenario.nodes` in
order, keep the node of a wanted type with strictly smallest shortest-path
distance (first found wins ties; unreachable nodes are skipped). -/
def nearestOfTypes (g : List (String × String × ℚ)) (nodes : List MNode)
    (types : List String) (from_node : String) : Option String :=
  (nodes.foldl
    (fun best n =>
      if n.ntype ∈ types then
        match spDist g from_node n.id with
        | some d =>
          match best with
          | none => some (n.id, d)
          | some bd => if d < bd.2 then some (n.id, d) else best
        | none => best
      else best)
    none).map (fun bd => bd.1)

/-- `_find_nearest_medical` (engine.py 1299-1321). -/
def findNearestMedical (g : List (String × String × ℚ)) (nodes : List MNode)
    (from_node : String) : Option String :=
  nearestOfTypes g nodes ["medical_role1", "medical_role2"] from_node

/-- `_find_nearest_workshop` (engine.py 1323-1343). -/
def findNearestWorkshop (g : List (String × String × ℚ)) (nodes : List MNode)
    (from_node : String) : Option String :=
  nearestOfTypes g nodes ["repair_workshop"] from_node

/-- `_find_nearest_ammo_point` (engine.py 1345-1365). -/
def findNearestAmmoPoint (g : List (String × String × ℚ)) (nodes : List MNode)
    (from_node : String) : Option String :=
  nearestOfTypes g nodes ["ammo_point"] from_node

/-! ### Workshop repair duration (`engine.py` 871-878, C4)

`NodeProperties` (`models/network.py` 66-134) defines
`repair_time_light_mins` / `repair_time_medium_mins` /
`repair_time_heavy_mins` — and no field named `repair_time_mins`. -/

/-- The workshop-relevant slice of `NodeProperties`. -/
structure NodePropertiesE where
  treatment_time_mins : Option ℚ
  repair_time_light_mins : Option ℚ
  repair_time_medium_mins : Option ℚ
  repair_time_heavy_mins : Option ℚ
deriving DecidableEq, Repr

/-- `hasattr(node.properties, "repair_time_mins")`: the pydantic
`NodeProperties` model declares no field of that name (its repair times are
`repair_time_light_mins` / `repair_time_medium_mins` /
`repair_time_heavy_mins`), so the check is `False` for every node. -/
def nodePropertiesHasAttrRepairTimeMins : Bool := false

/-- The repair duration computed by `_repair_process` (engine.py 878):
`node.properties.repair_time_mins if hasattr(node.properties,
"repair_time_mins") else 60`.  Because the attribute never exists, this
evaluates to the constant 60 for every node, ignoring the configured
per-class repair times. -/
def repairTimeOfNode (_props : NodePropertiesE) : ℚ := 60

/-- The per-class repair time the node configuration declares
(`NodeProperties` fields, selected by the broken vehicle's weight class). -/
def configuredRepairTime (props : NodePropertiesE) (vclass : String) : Option ℚ :=
  if vclass = "light" then props.repair_time_light_mins
  else if vclass = "medium" then props.repair_time_medium_mins
  else if vclass = "heavy" then props.repair_time_heavy_mins
  else none

/-! ### Ammo request records and delivery (events.py 193-254, engine.py
1000-1079, C7) -/

/-- `AmmoRequest` (events.py 193-254). -/
structure AmmoRequestRec where
  id : String
  location : String
  quantity_requested : Int
  time_requested : ℚ
  priority : Int
  quantity_delivered : Int
  time_dispatched : Option ℚ
  time_loaded : Option ℚ
  time_delivered : Option ℚ
  fulfilled_by : Option String
  loaded_from : Option String
deriving DecidableEq, Repr

/-- `EventLog.create_ammo_request` (events.py 365-384): a fresh record with
`quantity_delivered = 0` and all timestamps unset. -/
def mkAmmoRequest (id location : String) (quantity : Int) (t : ℚ)
    (priority : Int) : AmmoRequestRec :=
  ⟨id, location, quantity, t, priority, 0, none, none, none, none, none⟩

/-- The load-quantity computation of `_logistics_process` (engine.py 1016):
`min(request.quantity, capacity)`. -/
def quantityLoaded (requested capacity : Int) : Int :=
  min requested capacity

/-- The dispatch update of `_logistics_process` (engine.py 969-970). -/
def dispatchAmmo (r : AmmoRequestRec) (t : ℚ) (vid : String) : AmmoRequestRec :=
  { r with time_dispatched := some t, fulfilled_by := some vid }

/-- The load update of `_logistics_process` (engine.py 1011-1012). -/
def loadAmmo (r : AmmoRequestRec) (t : ℚ) (node : String) : AmmoRequestRec :=
  { r with time_loaded := some t, loaded_from := some node }

/-- The delivery update of `_logistics_process` (engine.py 1068-1069):
`time_delivered = now`, `quantity_delivered = min(request.quantity,
capacity)` where `request.quantity` equals the record's
`quantity_requested`. -/
def deliverAmmo (r : AmmoRequestRec) (t : ℚ) (capacity : Int) : AmmoRequestRec :=
  { r with
    time_delivered := some t,
    quantity_delivered := quantityLoaded r.quantity_requested capacity }

/-- `AmmoRequest.is_fulfilled` (events.py 251-254):
`quantity_delivered >= quantity_requested`. -/
def isFulfilled (r : AmmoRequestRec) : Bool :=
  r.quantity_requested ≤ r.quantity_delivered

/-- Every state an `AmmoRequest` record can reach during a run: created by a
demand generator (with a validated quantity, `ManualDemandEvent.quantity` and
the rate-based quantities are `ge=1`), then optionally updated by the
logistics process in program order.  The vehicle capacity used at delivery is
`vtype.ammo_capacity_units or 1000` (engine.py 1015), which is non-negative
(the field is validated `ge=0`, the fallback is 1000). -/
inductive AmmoReach : AmmoRequestRec → Prop
  | created (id location : String) (q : Int) (t : ℚ) (p : Int) (hq : 0 ≤ q) :
      AmmoReach (mkAmmoRequest id location q t p)
  | dispatched {r : AmmoRequestRec} (t : ℚ) (vid : String) :
      AmmoReach r → AmmoReach (dispatchAmmo r t vid)
  | loaded {r : AmmoRequestRec} (t : ℚ) (node : String) :
      AmmoReach r → AmmoReach (loadAmmo r t node)
  | delivered {r : AmmoRequestRec} (t : ℚ) (cap : Int) (hcap : 0 ≤ cap) :
      AmmoReach r → r.time_delivered = none → AmmoReach (deliverAmmo r t cap)

/-! ### Casualty lifecycle (events.py 47-109, engine.py 509-713, C6)

The engine mutates `Casualty` records at five code sites, each assigning the
current simulation time `env.now`; `env.now` never decreases (SimPy only
advances the clock, and every `timeout` the engine yields has a non-negative
delay: travel times, load/unload/treatment durations and the 1-minute polling
interval are all ≥ 0).  The transition system below has one step per code
site, with guards mirroring the program order of `_ambulance_process` /
`_treatment_process` (collect before deliver in the same generator; the
treatment process is spawned after `time_delivered` is assigned). -/

/-- `Casualty` (events.py 47-109). -/
structure CasualtyRec where
  id : String
  priority : Int
  origin_node : String
  mechanism : String
  time_generated : ℚ
  time_collected : Option ℚ
  time_delivered : Option ℚ
  time_treatment_started : Option ℚ
  time_treatment_completed : Option ℚ
  collected_by : Option String
  delivered_to : Option String
deriving DecidableEq, Repr

/-- `EventLog.create_casualty` (events.py 299-318): fresh record, only
`time_generated` set (to the current time). -/
def freshCasualty (id : String) (priority : Int) (origin mech : String)
    (t : ℚ) : CasualtyRec :=
  ⟨id, priority, origin, mech, t, none, none, none, none, none, none⟩

/-- Collection update (engine.py 576-577). -/
def collectCas (c : CasualtyRec) (t : ℚ) (vid : String) : CasualtyRec :=
  { c with time_collected := some t, collected_by := some vid }

/-- Delivery update (engine.py 638-639). -/
def deliverCas (c : CasualtyRec) (t : ℚ) (node : String) : CasualtyRec :=
  { c with time_delivered := some t, delivered_to := some node }

/-- Treatment-start update (engine.py 686 / 711). -/
def startTreatCas (c : CasualtyRec) (t : ℚ) : CasualtyRec :=
  { c with time_treatment_started := some t }

/-- Treatment-completion update (engine.py 701 / 713). -/
def finishTreatCas (c : CasualtyRec) (t : ℚ) : CasualtyRec :=
  { c with time_treatment_completed := some t }

/-- The clock plus the casualty registry. -/
structure CasState where
  now : ℚ
  casualties : List CasualtyRec

/-- One engine step as observed by the casualty registry.  `advance` is the
passage of simulated time (SimPy timeouts, all non-negative).  Each mutation
step stamps the current clock, mirrors one assignment site in the engine, and
carries the guard that the program order of the owning process enforces:
casualties are collected at most once (each queue request is popped by
exactly one ambulance), delivered after collection within the same generator,
and treated after delivery (the treatment process is spawned at
engine.py 652, after the delivery assignment at 638). -/
inductive CasStep : CasState → CasState → Prop
  | advance (s : CasState) (d : ℚ) (h : 0 ≤ d) :
      CasStep s ⟨s.now + d, s.casualties⟩
  | generate (s : CasState) (id : String) (p : Int) (loc mech : String) :
      CasStep s ⟨s.now, s.casualties ++ [freshCasualty id p loc mech s.now]⟩
  | collect (s : CasState) (i : Nat) (vid : String) (c : CasualtyRec)
      (hc : s.casualties.get? i = some c) (hpre : c.time_collected = none) :
      CasStep s ⟨s.now, s.casualties.set i (collectCas c s.now vid)⟩
  | deliver (s : CasState) (i : Nat) (node : String) (c : CasualtyRec)
      (hc : s.casualties.get? i = some c) (hcol : c.time_collected ≠ none)
      (hpre : c.time_delivered = none) :
      CasStep s ⟨s.now, s.casualties.set i (deliverCas c s.now node)⟩
  | treatStart (s : CasState) (i : Nat) (c : CasualtyRec)
      (hc : s.casualties.get? i = some c) (hdel : c.time_delivered ≠ none)
      (hpre : c.time_treatment_started = none) :
      CasStep s ⟨s.now, s.casualties.set i (startTreatCas c s.now)⟩
  | treatFinish (s : CasState) (i : Nat) (c : CasualtyRec)
      (hc : s.casualties.get? i = some c)
      (hst : c.time_treatment_started ≠ none)
      (hpre : c.time_treatment_completed = none) :
      CasStep s ⟨s.now, s.casualties.set i (finishTreatCas c s.now)⟩

/-- States reachable from the start of a run (clock 0, empty registry). -/
inductive CasReachable : CasState → Prop
  | init : CasReachable ⟨0, []⟩
  | step {s s2 : CasState} : CasReachable s → CasStep s s2 → CasReachable s2

/-- The claim's monotonicity property for one casualty record. -/
def CasMonotone (c : CasualtyRec) : Prop :=
  (∀ tc, c.time_collected = some tc → c.time_generated ≤ tc) ∧
  (∀ tc td, c.time_collected = some tc → c.time_delivered = some td → tc ≤ td) ∧
  (∀ td tt, c.time_delivered = some td →
    c.time_treatment_completed = some tt → td ≤ tt)

/-- Strengthened per-casualty invariant: all set timestamps are at most the
current clock, and each stage carries a witness for the preceding stage. -/
def CasInv (now : ℚ) (c : CasualtyRec) : Prop :=
  c.time_generated ≤ now ∧
  (∀ t, c.time_collected = some t → c.time_generated ≤ t ∧ t ≤ now) ∧
  (∀ t, c.time_delivered = some t →
    t ≤ now ∧ ∃ tc, c.time_collected = some tc ∧ tc ≤ t) ∧
  (∀ t, c.time_treatment_started = some t →
    t ≤ now ∧ ∃ td, c.time_delivered = some td ∧ td ≤ t) ∧
  (∀ t, c.time_treatment_completed = some t →
    t ≤ now ∧ ∃ td, c.time_delivered = some td ∧ td ≤ t)

/-! ### Event export (`events.py` 36-44, C10) -/

/-- Values stored in an event's detail bag / exported dict. -/
inductive JVal
  | jNum (q : ℚ)
  | jInt (n : Int)
  | jStr (s : String)
  | jNull
deriving DecidableEq, Repr

/-- `SimEvent` (events.py 13-44): core fields plus the open detail bag
(`details`, passed as keyword arguments, hence with unique keys). -/
structure SimEventE where
  time_mins : ℚ
  event_type : String
  entity_id : String
  location : Option String
  details : List (String × JVal)
deriving DecidableEq, Repr

/-- Lookup in the four core entries of the `to_dict` literal. -/
def coreLookup (e : SimEventE) (k : String) : Option JVal :=
  if k = "time_mins" then some (JVal.jNum e.time_mins)
  else if k = "event_type" then some (JVal.jStr e.event_type)
  else if k = "entity_id" then some (JVal.jStr e.entity_id)
  else if k = "location" then
    some (match e.location with
          | some l => JVal.jStr l
          | none => JVal.jNull)
  else none

/-- `SimEvent.to_dict` (events.py 36-44) as the lookup function of the
resulting dict: the literal lists the four core fields and then splats
`**self.details`; in a Python dict display a later duplicate key overwrites
an earlier one, so a detail entry wins over a core field of the same name. -/
def toDictLookup (e : SimEventE) (k : String) : Option JVal :=
  match e.details.lookup k with
  | some v => some v
  | none => coreLookup e k

/-- The four core key names of the export. -/
def coreKeys : List String :=
  ["time_mins", "event_type", "entity_id", "location"]

/-! ### Mini-engine: executable embedding of `SimulationEngine.run`

This embeds the engine for the manual-demand scenario class with ambulance
vehicles and treatment processes (the processes exercised by the determinism
and safety-cap claims).  SimPy's event core is modelled explicitly: a queue
of `(time, priority, eid)`-keyed wake-ups, where `priority` is `URGENT = 0`
for process starts (`env.process` schedules an `Initialize` event) and
`NORMAL = 1` for timeouts, and `eid` is the strictly increasing event counter
SimPy uses as the final tie-break — so the pop order is a deterministic
function of the queue contents, exactly as in SimPy.  Generator coroutines
become explicit continuations: each `ProcK` value names the resume point
after a `yield`, and each handler runs the source code between two yields.
Event-detail bags are not reproduced (the claims compare event kinds and
counts); each `log_event` call appends exactly one event. -/

/-- `Breakdown` (events.py 112-190), creation-time fields (the mini-engine
only creates breakdown records; recovery processes are outside its scope). -/
structure BreakdownRec where
  id : String
  vehicle_id : String
  vehicle_class : String
  location : String
  time_occurred : ℚ
  priority : Int
deriving DecidableEq, Repr

/-- The vehicle-type fields the embedded processes read
(`models/vehicles.py` `VehicleType` with `SpeedProfile`/`ServiceTimes`
flattened). -/
structure MVType where
  id : String
  role : String
  vehicle_class : String
  unladen_kmh : ℚ
  laden_kmh : ℚ
  load_time_mins : ℚ
  unload_time_mins : ℚ
deriving DecidableEq, Repr

/-- A vehicle instance (`models/vehicles.py` `Vehicle`; the embedded
scenarios use the default initial state, idle). -/
structure MVehicle where
  id : String
  type_id : String
  start_location : String
deriving DecidableEq, Repr

/-- `ManualDemandEvent` (models/demand.py 20-55); `vehicle_id` carries the
`properties["vehicle_id"]` entry breakdown events use. -/
structure MDemandEvent where
  time_mins : ℚ
  dtype : String
  location : String
  quantity : Nat
  priority : Int
  vehicle_id : Option String
deriving DecidableEq, Repr

/-- `SimulationConfig` (models/scenario.py 18-68), the fields the engine
reads.  Note: the model defines no `max_events` field (and rejects extra
fields), so no event cap is available to `run`. -/
structure MConfig where
  duration_hours : ℚ
  random_seed : Int
deriving DecidableEq, Repr

/-- The manual-mode scenario slice consumed by the mini-engine. -/
structure MiniScenario where
  nodes : List MNode
  edges : List EdgeE
  vehicle_types : List MVType
  vehicles : List MVehicle
  manual_events : List MDemandEvent
  config : MConfig
deriving Repr

/-- `config.duration_hours * 60` (engine.py 155). -/
def durationMins (sc : MiniScenario) : ℚ :=
  sc.config.duration_hours * 60

/-- `Scenario.get_node_by_id` (models/scenario.py 195-200): first match. -/
def getNodeById (sc : MiniScenario) (nid : String) : Option MNode :=
  sc.nodes.find? (fun n => n.id == nid)

/-- `Scenario.get_vehicle_type_by_id` (models/scenario.py 202-207). -/
def getVTypeById (sc : MiniScenario) (tid : String) : Option MVType :=
  sc.vehicle_types.find? (fun t => t.id == tid)

/-- `VehicleRuntime` (engine.py 34-63), the fields the embedded processes
touch. -/
structure VRuntime where
  vtype : MVType
  state : String
  current_location : String
  casualties_aboard : List String
  missions_completed : Nat
deriving DecidableEq, Repr

/-- A logged event: time, kind (the `EventType` enum value string), primary
entity, optional location. -/
structure MEvent where
  time_mins : ℚ
  event_type : String
  entity_id : String
  location : Option String
deriving DecidableEq, Repr

/-- Resume points of the `_ambulance_process` generator (engine.py 509-667):
`poll` is the queue-wait / availability loop at the top; the others name the
statement after each later `yield`. -/
inductive AmbPhase
  | poll
  | arrivePickup (cas : String) (pickup : String)
  | afterLoad (cas : String) (pickup : String)
  | arriveDelivery (cas : String) (delivery : String)
  | afterUnload (cas : String) (delivery : String)
deriving DecidableEq, Repr

/-- Resume points of `_treatment_process` (engine.py 669-713). -/
inductive TreatPhase
  | start
  | granted
  | afterTreatRes
  | afterTreatNoRes
deriving DecidableEq, Repr

/-- A suspended logical process together with its continuation state. -/
inductive ProcK
  | demand (remaining : List MDemandEvent)
  | amb (vid : String) (phase : AmbPhase)
  | treat (cas : String) (node : String) (phase : TreatPhase)
deriving DecidableEq, Repr

/-- One scheduled wake-up in the SimPy event queue, keyed by
`(time, priority, eid)`; `time = ⊤` models a `timeout(float("inf"))`. -/
structure SchedItem where
  time : WithTop ℚ
  prio : Nat
  eid : Nat
  proc : ProcK
deriving DecidableEq, Repr

/-- A capacity-limited SimPy `Resource`: capacity, current user count, and
the FIFO queue of blocked requesters (stored as the continuation to resume
when a slot frees). -/
structure ResState where
  capacity : Nat
  users : Nat
  waitq : List ProcK
deriving DecidableEq, Repr

/-- The full mutable engine state (`SimulationEngine` fields plus the SimPy
environment's clock and event queue). -/
structure ECore where
  now : ℚ
  casualty_queue : List CasualtyRequest
  recovery_queue : List RecoveryRequest
  ammo_queue : List AmmoDeliveryRequest
  idle_ambulances : List String
  vehicles : List (String × VRuntime)
  casualties : List CasualtyRec
  cas_counter : Nat
  breakdowns : List BreakdownRec
  bd_counter : Nat
  ammo_requests : List AmmoRequestRec
  ammo_counter : Nat
  resources : List (String × ResState)
  sched : List SchedItem
  next_eid : Nat
deriving Repr

/-- Vehicle-runtime lookup (`self.vehicles[vehicle_id]`). -/
def getVR (c : ECore) (vid : String) : Option VRuntime :=
  c.vehicles.lookup vid

/-- Update one vehicle's runtime state. -/
def setVR (c : ECore) (vid : String) (f : VRuntime → VRuntime) : ECore :=
  { c with
    vehicles := c.vehicles.map (fun p => if p.1 == vid then (p.1, f p.2) else p) }

/-- Node-resource lookup (`self.node_resources.get(node_id)`). -/
def getRes (c : ECore) (nid : String) : Option ResState :=
  c.resources.lookup nid

/-- Update one node resource. -/
def setRes (c : ECore) (nid : String) (f : ResState → ResState) : ECore :=
  { c with
    resources := c.resources.map (fun p => if p.1 == nid then (p.1, f p.2) else p) }

/-- Update one casualty record in the registry, by id. -/
def updateCas (c : ECore) (cid : String) (f : CasualtyRec → CasualtyRec) : ECore :=
  { c with
    casualties := c.casualties.map (fun x => if x.id == cid then f x else x) }

/-- Schedule a wake-up, consuming the next SimPy event id. -/
def scheduleAt (c : ECore) (t : WithTop ℚ) (prio : Nat) (p : ProcK) : ECore :=
  { c with
    sched := c.sched ++ [⟨t, prio, c.next_eid, p⟩],
    next_eid := c.next_eid + 1 }

/-- `yield env.timeout(d)` with a finite delay: wake at `now + d`, priority
NORMAL. -/
def timeoutAt (c : ECore) (d : ℚ) (p : ProcK) : ECore :=
  scheduleAt c (some (c.now + d)) 1 p

/-- `yield env.timeout(d)` with a possibly-infinite delay (travel times). -/
def timeoutAtT (c : ECore) (d : WithTop ℚ) (p : ProcK) : ECore :=
  scheduleAt c (((c.now : ℚ) : WithTop ℚ) + d) 1 p

/-- `env.process(...)`: SimPy schedules the generator's `Initialize` event at
the current time with URGENT priority. -/
def spawnProcess (c : ECore) (p : ProcK) : ECore :=
  scheduleAt c (some c.now) 0 p

/-- `f"{n:04d}"`. -/
def pad4 (n : Nat) : String :=
  let s := toString n
  String.mk (List.replicate (4 - s.length) '0') ++ s

/-- `f"CAS_{counter:04d}"` (events.py 308). -/
def casIdOf (n : Nat) : String := "CAS_" ++ pad4 n

/-- `f"BD_{counter:04d}"` (events.py 341). -/
def bdIdOf (n : Nat) : String := "BD_" ++ pad4 n

/-- `f"AMMO_{counter:04d}"` (events.py 374). -/
def ammoIdOf (n : Nat) : String := "AMMO_" ++ pad4 n

/-- `_generate_casualty` (engine.py 381-416): create the registry record,
log `CASUALTY_GENERATED`, push a `CasualtyRequest` onto the casualty heap. -/
def genCasualty (c : ECore) (location : String) (priority : Int)
    (mech : String) : ECore × List MEvent :=
  let n := c.cas_counter + 1
  let cid := casIdOf n
  let cas := freshCasualty cid priority location mech c.now
  let req : CasualtyRequest := ⟨priority, c.now, cid, location⟩
  ({ c with
      cas_counter := n,
      casualties := c.casualties ++ [cas],
      casualty_queue := heappush casKey c.casualty_queue req },
   [⟨c.now, "casualty_generated", cid, some location⟩])

/-- `_generate_breakdown` (engine.py 418-467): mark the vehicle broken down
at the given location, create the registry record, log `BREAKDOWN_OCCURRED`,
push a `RecoveryRequest`. -/
def genBreakdown (c : ECore) (vid location : String) (priority : Int) :
    ECore × List MEvent :=
  match getVR c vid with
  | none => (c, [])
  | some vr =>
    let vclass := vr.vtype.vehicle_class
    let c := setVR c vid
      (fun v => { v with state := "broken_down", current_location := location })
    let n := c.bd_counter + 1
    let bid := bdIdOf n
    let bd : BreakdownRec := ⟨bid, vid, vclass, location, c.now, priority⟩
    let req : RecoveryRequest := ⟨priority, c.now, bid, location, vclass⟩
    ({ c with
        bd_counter := n,
        breakdowns := c.breakdowns ++ [bd],
        recovery_queue := heappush recKey c.recovery_queue req },
     [⟨c.now, "breakdown_occurred", bid, some location⟩])

/-- `_generate_ammo_request` (engine.py 469-505). -/
def genAmmoRequest (c : ECore) (location : String) (quantity : Nat)
    (priority : Int) : ECore × List MEvent :=
  let n := c.ammo_counter + 1
  let aid := ammoIdOf n
  let rec0 := mkAmmoRequest aid location (quantity : Int) c.now priority
  let req : AmmoDeliveryRequest := ⟨priority, c.now, aid, location, (quantity : Int)⟩
  ({ c with
      ammo_counter := n,
      ammo_requests := c.ammo_requests ++ [rec0],
      ammo_queue := heappush ammoKey c.ammo_queue req },
   [⟨c.now, "ammo_request_generated", aid, some location⟩])

/-- `quantity` repetitions of `_generate_casualty` (engine.py 320-325). -/
def genCasualties (c : ECore) (location : String) (priority : Int) :
    Nat → ECore × List MEvent
  | 0 => (c, [])
  | n + 1 =>
    let r := genCasualty c location priority "Unknown"
    let r2 := genCasualties r.1 location priority n
    (r2.1, r.2 ++ r2.2)

/-- Dispatch of one manual demand event by type (engine.py 318-339). -/
def applyDemandEvent (c : ECore) (e : MDemandEvent) : ECore × List MEvent :=
  if e.dtype = "casualty" then
    genCasualties c e.location e.priority e.quantity
  else if e.dtype = "vehicle_breakdown" then
    match e.vehicle_id with
    | some vid =>
      match getVR c vid with
      | some _ => genBreakdown c vid e.location e.priority
      | none => (c, [])
    | none => (c, [])
  else if e.dtype = "ammo_request" then
    genAmmoRequest c e.location e.quantity e.priority
  else
    (c, [])

/-- Body of `_manual_demand_generator` (engine.py 305-339) from its current
resume point: sleep until the next event's time if it is in the future,
otherwise process it (and any further events due now) synchronously. -/
def runDemand (c : ECore) : List MDemandEvent → ECore × List MEvent
  | [] => (c, [])
  | e :: rest =>
    if c.now < e.time_mins then
      (scheduleAt c (some e.time_mins) 1 (ProcK.demand (e :: rest)), [])
    else
      let r := applyDemandEvent c e
      let r2 := runDemand r.1 rest
      (r2.1, r.2 ++ r2.2)

/-- Code between the travel yield and the load yield of `_ambulance_process`
(engine.py 553-573): arrive at the pickup node, start loading, suspend for
`load_time_mins`. -/
def segArrivePickup (c : ECore) (vid cas pickup : String) :
    ECore × List MEvent :=
  match getVR c vid with
  | none => (c, [])
  | some vr =>
    let c := setVR c vid
      (fun v => { v with current_location := pickup, state := "loading" })
    (timeoutAt c vr.vtype.load_time_mins
        (ProcK.amb vid (AmbPhase.afterLoad cas pickup)),
     [⟨c.now, "vehicle_arrived", vid, some pickup⟩,
      ⟨c.now, "loading_started", vid, some pickup⟩])

/-- Loop head of `_ambulance_process` (engine.py 514-551): wait while the
queue is empty or this ambulance is not idle (checking once per minute),
otherwise pop the highest-priority casualty, leave the idle pool, log the
dispatch and travel unladen to the pickup (falling through synchronously when
the travel time is 0, since the source only yields `if travel_time > 0`). -/
def segPoll (sc : MiniScenario) (c : ECore) (vid : String) :
    ECore × List MEvent :=
  match getVR c vid with
  | none => (c, [])
  | some vr =>
    if c.casualty_queue.isEmpty then
      (timeoutAt c 1 (ProcK.amb vid AmbPhase.poll), [])
    else if vid ∈ c.idle_ambulances then
      match heappop casKey c.casualty_queue with
      | none => (timeoutAt c 1 (ProcK.amb vid AmbPhase.poll), [])
      | some (req, q2) =>
        let c := { c with
          casualty_queue := q2,
          idle_ambulances := c.idle_ambulances.erase vid }
        let c := setVR c vid (fun v => { v with state := "transiting_unladen" })
        let ev : MEvent := ⟨c.now, "vehicle_dispatched", vid, some vr.current_location⟩
        let t := calcTravelTime (buildGraph sc.edges) vr.current_location
          req.location vr.vtype.unladen_kmh
        if (0 : WithTop ℚ) < t then
          (timeoutAtT c t (ProcK.amb vid (AmbPhase.arrivePickup req.casualty req.location)),
           [ev])
        else
          let r := segArrivePickup c vid req.casualty req.location
          (r.1, ev :: r.2)
    else
      (timeoutAt c 1 (ProcK.amb vid AmbPhase.poll), [])

/-- Code between the delivery-travel yield and the unload yield
(engine.py 616-635): arrive at the medical node, start unloading, suspend for
`unload_time_mins`. -/
def segArriveDelivery (c : ECore) (vid cas delivery : String) :
    ECore × List MEvent :=
  match getVR c vid with
  | none => (c, [])
  | some vr =>
    let c := setVR c vid
      (fun v => { v with current_location := delivery, state := "unloading" })
    (timeoutAt c vr.vtype.unload_time_mins
        (ProcK.amb vid (AmbPhase.afterUnload cas delivery)),
     [⟨c.now, "vehicle_arrived", vid, some delivery⟩,
      ⟨c.now, "unloading_started", vid, some delivery⟩])

/-- Code after the load yield (engine.py 575-614): stamp the casualty
collected, take it aboard, pick the nearest medical facility and travel laden
to it.  When no medical facility exists the source `continue`s with the
vehicle still out of the idle pool, which then sleeps one minute in the wait
loop — i.e. a 1-minute timeout back to `poll`. -/
def segAfterLoad (sc : MiniScenario) (c : ECore) (vid cas pickup : String) :
    ECore × List MEvent :=
  match getVR c vid with
  | none => (c, [])
  | some _ =>
    let c := updateCas c cas (fun x => collectCas x c.now vid)
    let c := setVR c vid
      (fun v => { v with casualties_aboard := v.casualties_aboard ++ [cas] })
    let ev1 : MEvent := ⟨c.now, "casualty_collected", cas, some pickup⟩
    match findNearestMedical (buildGraph sc.edges) sc.nodes pickup with
    | none =>
      (timeoutAt c 1 (ProcK.amb vid AmbPhase.poll), [ev1])
    | some delivery =>
      let c := setVR c vid (fun v => { v with state := "transiting_laden" })
      let ev2 : MEvent := ⟨c.now, "vehicle_departed", vid, some pickup⟩
      match getVR c vid with
      | none => (c, [ev1, ev2])
      | some vr2 =>
        let t := calcTravelTime (buildGraph sc.edges) pickup delivery
          vr2.vtype.laden_kmh
        if (0 : WithTop ℚ) < t then
          (timeoutAtT c t (ProcK.amb vid (AmbPhase.arriveDelivery cas delivery)),
           [ev1, ev2])
        else
          let r := segArriveDelivery c vid cas delivery
          (r.1, ev1 :: ev2 :: r.2)

/-- Code after the unload yield (engine.py 637-667): stamp the casualty
delivered, spawn the treatment process, return the vehicle to the idle pool
and re-enter the loop head synchronously (so a waiting request can be popped
at the same instant, as in the source). -/
def segAfterUnload (sc : MiniScenario) (c : ECore) (vid cas delivery : String) :
    ECore × List MEvent :=
  match getVR c vid with
  | none => (c, [])
  | some _ =>
    let c := updateCas c cas (fun x => deliverCas x c.now delivery)
    let c := setVR c vid
      (fun v => { v with casualties_aboard := v.casualties_aboard.erase cas })
    let ev1 : MEvent := ⟨c.now, "casualty_delivered", cas, some delivery⟩
    let c := spawnProcess c (ProcK.treat cas delivery TreatPhase.start)
    let c := setVR c vid
      (fun v => { v with
        missions_completed := v.missions_completed + 1, state := "idle" })
    let c := { c with idle_ambulances := c.idle_ambulances ++ [vid] }
    let ev2 : MEvent := ⟨c.now, "vehicle_returned", vid, some delivery⟩
    let r := segPoll sc c vid
    (r.1, ev1 :: ev2 :: r.2)

/-- `_treatment_process` (engine.py 669-713) from each resume point.
`treatment_time = node.properties.treatment_time_mins or 30`; the field is
validated `gt=0` when present, so Python `or` coincides with
default-on-`None`.  With a capacity-limited resource the process requests a
slot (granted immediately when free, else FIFO-queued), logs treatment start
and completion; without one it treats immediately and logs nothing
(engine.py 709-713). -/
def runTreat (sc : MiniScenario) (c : ECore) (cas node : String) :
    TreatPhase → ECore × List MEvent
  | TreatPhase.start =>
    match getNodeById sc node with
    | none => (c, [])
    | some nd =>
      let _tt := nd.treatment_time_mins.getD 30
      match getRes c node with
      | some res =>
        if res.users < res.capacity then
          let c := setRes c node (fun r => { r with users := r.users + 1 })
          (scheduleAt c (some c.now) 1 (ProcK.treat cas node TreatPhase.granted), [])
        else
          (setRes c node
            (fun r => { r with
              waitq := r.waitq ++ [ProcK.treat cas node TreatPhase.granted] }),
           [])
      | none =>
        let c := updateCas c cas (fun x => startTreatCas x c.now)
        (timeoutAt c (nd.treatment_time_mins.getD 30)
          (ProcK.treat cas node TreatPhase.afterTreatNoRes), [])
  | TreatPhase.granted =>
    let tt := match getNodeById sc node with
      | some nd => nd.treatment_time_mins.getD 30
      | none => 30
    let c := updateCas c cas (fun x => startTreatCas x c.now)
    (timeoutAt c tt (ProcK.treat cas node TreatPhase.afterTreatRes),
     [⟨c.now, "treatment_started", cas, some node⟩])
  | TreatPhase.afterTreatRes =>
    let c := updateCas c cas (fun x => finishTreatCas x c.now)
    let ev : MEvent := ⟨c.now, "treatment_completed", cas, some node⟩
    let c :=
      match getRes c node with
      | some res =>
        match res.waitq with
        | [] => setRes c node (fun r => { r with users := r.users - 1 })
        | w :: rest =>
          let c := setRes c node (fun r => { r with waitq := rest })
          scheduleAt c (some c.now) 1 w
      | none => c
    (c, [ev])
  | TreatPhase.afterTreatNoRes =>
    (updateCas c cas (fun x => finishTreatCas x c.now), [])

/-- Resume the process named by a continuation. -/
def execProc (sc : MiniScenario) (c : ECore) : ProcK → ECore × List MEvent
  | ProcK.demand rem => runDemand c rem
  | ProcK.amb vid ph =>
    match ph with
    | AmbPhase.poll => segPoll sc c vid
    | AmbPhase.arrivePickup cas pickup => segArrivePickup c vid cas pickup
    | AmbPhase.afterLoad cas pickup => segAfterLoad sc c vid cas pickup
    | AmbPhase.arriveDelivery cas delivery => segArriveDelivery c vid cas delivery
    | AmbPhase.afterUnload cas delivery => segAfterUnload sc c vid cas delivery
  | ProcK.treat cas node ph => runTreat sc c cas node ph

/-- Strict order on scheduler keys `(time, priority, eid)`; `eid`s are
unique, so this totally orders any queue SimPy builds. -/
def schedLt (a b : SchedItem) : Bool :=
  if a.time < b.time then true
  else if b.time < a.time then false
  else if a.prio < b.prio then true
  else if b.prio < a.prio then false
  else decide (a.eid < b.eid)

/-- Extract the scheduled item with the smallest `(time, priority, eid)` key,
as `heapq` does inside SimPy (keys are distinct, so any min-extraction
computes the same item). -/
def selMin : List SchedItem → Option (SchedItem × List SchedItem)
  | [] => none
  | x :: xs =>
    match selMin xs with
    | none => some (x, [])
    | some (m, rest) =>
      if schedLt m x then some (m, x :: rest) else some (x, xs)

/-- Why the main loop stopped. -/
inductive StopReason
  | reachedUntil
  | emptySchedule
  | fuelExhausted
deriving DecidableEq, Repr

/-- `env.run(until=duration_mins)` (engine.py 156): process events in key
order while their time is below the horizon; at the first event at or beyond
it the clock is set to the horizon and the run returns.  `fuel` bounds the
number of processed events (a pure-termination device; the concrete theorems
check that the run stopped for a real reason). -/
def runLoop (sc : MiniScenario) :
    Nat → ECore → List MEvent → ECore × List MEvent × StopReason
  | 0, c, log => (c, log, StopReason.fuelExhausted)
  | fuel + 1, c, log =>
    match selMin c.sched with
    | none => (c, log, StopReason.emptySchedule)
    | some (item, rest) =>
      if ((durationMins sc : ℚ) : WithTop ℚ) ≤ item.time then
        ({ c with now := durationMins sc }, log, StopReason.reachedUntil)
      else
        let c2 := { c with now := item.time.untop' c.now, sched := rest }
        let r := execProc sc c2 item.proc
        runLoop sc fuel r.1 (log ++ r.2)

/-- `_init_vehicles` (engine.py 240-259): build runtime records (validated
scenarios resolve every type reference; unresolvable ones are skipped here
where the source would abort setup). -/
def initVehicles (sc : MiniScenario) : List (String × VRuntime) :=
  sc.vehicles.filterMap (fun v =>
    (getVTypeById sc v.type_id).map
      (fun t => (v.id, ⟨t, "idle", v.start_location, [], 0⟩)))

/-- The idle-ambulance pool after `_init_vehicles`: ambulance-role vehicles
in scenario order. -/
def initIdleAmbulances (sc : MiniScenario) : List String :=
  (initVehicles sc).filterMap
    (fun p => if p.2.vtype.role == "ambulance" then some p.1 else none)

/-- `_create_resources` (engine.py 224-238) for the embedded node types:
medical nodes with a positive `treatment_slots` capacity get a resource. -/
def initResources (sc : MiniScenario) : List (String × ResState) :=
  sc.nodes.filterMap (fun n =>
    if n.ntype == "medical_role1" || n.ntype == "medical_role2" then
      match n.treatment_slots with
      | some cap => if 0 < cap then some (n.id, ⟨cap, 0, []⟩) else none
      | none => none
    else none)

/-- Manual events sorted by time (engine.py 307-311; Python `sorted` is
stable, as is `mergeSort`). -/
def sortedManual (sc : MiniScenario) : List MDemandEvent :=
  sc.manual_events.mergeSort (fun a b => a.time_mins ≤ b.time_mins)

/-- `_setup` (engine.py 169-193): the demand generator is started before the
vehicle processes, so its `Initialize` event carries the smaller event id;
ambulance processes follow in vehicle order. -/
def initCore (sc : MiniScenario) : ECore :=
  let ambs := initIdleAmbulances sc
  let procs : List SchedItem :=
    ⟨(0 : ℚ), 0, 0, ProcK.demand (sortedManual sc)⟩ ::
      (ambs.enum.map (fun p =>
        ⟨(0 : ℚ), 0, p.1 + 1, ProcK.amb p.2 AmbPhase.poll⟩))
  { now := 0
    casualty_queue := []
    recovery_queue := []
    ammo_queue := []
    idle_ambulances := ambs
    vehicles := initVehicles sc
    casualties := []
    cas_counter := 0
    breakdowns := []
    bd_counter := 0
    ammo_requests := []
    ammo_counter := 0
    resources := initResources sc
    sched := procs
    next_eid := procs.length }

/-- The result of a run: final state, event log, stop reason. -/
structure RunResult where
  core : ECore
  log : List MEvent
  reason : StopReason
deriving Repr

/-- `SimulationEngine.run` (engine.py 140-167): set up, log
`SIMULATION_STARTED`, drive the clock to the duration horizon, then append
`SIMULATION_ENDED` at `env.now` — unconditionally, with no event-count
check anywhere in the loop. -/
def runEngine (sc : MiniScenario) (fuel : Nat) : RunResult :=
  let c0 := initCore sc
  let startEv : MEvent := ⟨0, "simulation_started", "SYSTEM", none⟩
  let r := runLoop sc fuel c0 []
  let endEv : MEvent := ⟨r.1.now, "simulation_ended", "SYSTEM", none⟩
  ⟨r.1, startEv :: r.2.1 ++ [endEv], r.2.2⟩

/-- The ordered sequence of event kinds of a run. -/
def eventKinds (r : RunResult) : List String :=
  r.log.map (fun e => e.event_type)

/-! ### Heap invariant and reachable queue states -/

/-- The binary-heap order on the underlying array: every parent's key is at
most each child's key (children of `i` sit at `2i+1` and `2i+2`). -/
def IsHeap (key : α → Int) (l : List α) : Prop :=
  ∀ i c : Nat, c < l.length → (c = 2 * i + 1 ∨ c = 2 * i + 2) →
    key (l.getD i default) ≤ key (l.getD c default)

/-- Queue states reachable by the engine: the queues start empty and are
touched only through `heapq.heappush` and `heapq.heappop`. -/
inductive HeapReach (key : α → Int) : List α → Prop
  | empty : HeapReach key []
  | push {h : List α} (x : α) : HeapReach key h → HeapReach key (heappush key h x)
  | pop {h : List α} {r : α} {h2 : List α} :
      HeapReach key h → heappop key h = some (r, h2) → HeapReach key h2

/-! ### Logistics stockout branch (`engine.py` 929-966, C9) -/

/-- The state touched by the head of a `_logistics_process` iteration. -/
structure LogisticsState where
  now : ℚ
  ammo_queue : List AmmoDeliveryRequest
  idle_logistics : List String
  vehicles : List (String × VRuntime)
  ammo_requests : List AmmoRequestRec
  log : List MEvent

/-- Vehicle-runtime lookup inside a `LogisticsState`. -/
def getVRL (st : LogisticsState) (vid : String) : Option VRuntime :=
  st.vehicles.lookup vid

/-- Update one vehicle's runtime inside a `LogisticsState`. -/
def setVRL (st : LogisticsState) (vid : String) (f : VRuntime → VRuntime) :
    LogisticsState :=
  { st with
    vehicles := st.vehicles.map (fun p => if p.1 == vid then (p.1, f p.2) else p) }

/-- The stockout branch of `_logistics_process` (engine.py 944-966), entered
after `heappop` returned `req` (leaving `q2`) and `_find_nearest_ammo_point`
returned `None`: leave the idle pool and go busy (lines 950-951), log exactly
one STOCKOUT event with the request's id and delivery location (958-963),
rejoin the idle pool and return to IDLE (964-965), then `continue` — the
request is not re-pushed and the registry record is never touched. -/
def stockoutBranch (st : LogisticsState) (vid : String)
    (req : AmmoDeliveryRequest) (q2 : List AmmoDeliveryRequest) :
    LogisticsState :=
  let st1 := { st with
    ammo_queue := q2,
    idle_logistics := st.idle_logistics.erase vid }
  let st2 := setVRL st1 vid (fun v => { v with state := "transiting_unladen" })
  let st3 := { st2 with
    log := st2.log ++
      [(⟨st2.now, "stockout", req.ammo_request, some req.location⟩ : MEvent)] }
  let st4 := { st3 with idle_logistics := st3.idle_logistics ++ [vid] }
  setVRL st4 vid (fun v => { v with state := "idle" })

/-- One attempted dispatch by an idle logistics vehicle (the head of the
`_logistics_process` loop, engine.py 944-966), modelled for the stockout
case: pop the highest-priority request and, when no ammo point is reachable
from the vehicle's current location, take the stockout branch.  The non-
stockout continuation (travel/load/deliver) is outside this model, hence
`none` there. -/
def logisticsDispatchOnce (nodes : List MNode)
    (g : List (String × String × ℚ)) (st : LogisticsState) (vid : String) :
    Option LogisticsState :=
  match heappop ammoKey st.ammo_queue, getVRL st vid with
  | some (req, q2), some vr =>
    if findNearestAmmoPoint g nodes vr.current_location = none then
      some (stockoutBranch st vid req q2)
    else
      none
  | _, _ => none

/-! ### Concrete inputs used by counterexamples and witnesses -/

/-- Four casualty requests of equal priority (as created by one manual demand
event of quantity 4 at time 30), in generation order. -/
def crA : CasualtyRequest := ⟨2, 30, "CAS_0001", "POS_A"⟩

/-- Second request of the equal-priority batch. -/
def crB : CasualtyRequest := ⟨2, 30, "CAS_0002", "POS_A"⟩

/-- Third request of the equal-priority batch. -/
def crC : CasualtyRequest := ⟨2, 30, "CAS_0003", "POS_A"⟩

/-- Fourth request of the equal-priority batch. -/
def crD : CasualtyRequest := ⟨2, 30, "CAS_0004", "POS_A"⟩

/-- A small routed network: `A - B` (2 km, terrain 1.5), `B - C` (1 km),
and a direct `A - C` (10 km); `D` appears in no edge. -/
def edgesW : List EdgeE :=
  [⟨"A", "B", 2, 3 / 2⟩, ⟨"B", "C", 1, 1⟩, ⟨"A", "C", 10, 1⟩]

/-- A workshop node configuring a 90-minute repair for medium vehicles (and
45/180 for light/heavy): the failing input for the repair-duration claim. -/
def workshopProps : NodePropertiesE :=
  ⟨none, some 45, some 90, some 180⟩

/-- Concrete scenario for the safety-cap claim: one combat position `A`, one
role-1 facility `M` (no slot limit) joined by a 1 km road, one light
ambulance starting at `M`, and a manual demand of two priority-2 casualties
at minute 30; duration 1 hour. -/
def scC3 : MiniScenario :=
  { nodes :=
      [⟨"A", "combat", none, none⟩, ⟨"M", "medical_role1", some 10, none⟩]
    edges := [⟨"A", "M", 1, 1⟩]
    vehicle_types := [⟨"amb_t", "ambulance", "light", 60, 60, 1, 1⟩]
    vehicles := [⟨"AMB1", "amb_t", "M"⟩]
    manual_events := [⟨30, "casualty", "A", 2, 2, none⟩]
    config := ⟨1, 42⟩ }

/-- The casualty record at the end of the lifecycle trace used as the
monotonicity witness: generated at 3, collected at 5, delivered at 9,
treatment 10 to 20. -/
def witCasualty : CasualtyRec :=
  finishTreatCas
    (startTreatCas
      (deliverCas
        (collectCas (freshCasualty "CAS_0001" 1 "A" "Unknown" 3) 5 "AMB1")
        9 "M")
      10)
    20

/-- The logistics state used as the stockout witness: one idle ammo-logistics
truck at `X`, a single pending request from `X`, no ammo-point node
anywhere. -/
def stW : LogisticsState :=
  { now := 45
    ammo_queue := [⟨2, 40, "AMMO_0001", "X", 100⟩]
    idle_logistics := ["LOG1"]
    vehicles :=
      [("LOG1", ⟨⟨"log_t", "ammo_logistics", "medium", 50, 40, 5, 5⟩,
        "idle", "X", [], 0⟩)]
    ammo_requests := [mkAmmoRequest "AMMO_0001" "X" 100 40 2]
    log := [] }

/-! ### Proof-infrastructure predicates for the heap development -/

/-- `c` is a child slot of `i` in the implicit binary tree of the array. -/
def ChildRel (i c : Nat) : Prop :=
  c = 2 * i + 1 ∨ c = 2 * i + 2

/-- Precondition of `siftdownAux` run from `startpos = 0`: writing `newitem`
at the hole `pos` yields an array that is a heap except possibly for the pair
(parent of `pos`, `pos`), and additionally the value at the parent of `pos`
is below every child of `pos`. -/
def SiftdownPre (key : α → Int) (heap : List α) (pos : Nat) (newitem : α) :
    Prop :=
  (∀ i c : Nat, c < heap.length → ChildRel i c →
      ¬(i = (pos - 1) / 2 ∧ c = pos) →
      key ((heap.set pos newitem).getD i default) ≤
        key ((heap.set pos newitem).getD c default)) ∧
  (∀ c : Nat, ChildRel pos c → c < heap.length →
      key ((heap.set pos newitem).getD ((pos - 1) / 2) default) ≤
        key ((heap.set pos newitem).getD c default))

/-- Precondition of `siftupAux`: the array is a heap on all pairs avoiding
the hole `pos`, and (when the hole is not the root) the value at the parent
of `pos` is below every child of `pos`. -/
def SiftupPre (key : α → Int) (heap : List α) (pos : Nat) : Prop :=
  (∀ i c : Nat, c < heap.length → ChildRel i c → i ≠ pos → c ≠ pos →
      key (heap.getD i default) ≤ key (heap.getD c default)) ∧
  (∀ c : Nat, ChildRel pos c → c < heap.length → 0 < pos →
      key (heap.getD ((pos - 1) / 2) default) ≤ key (heap.getD c default))

/-! ## Theorems

First the generic list and heap lemmas, then one named theorem per claim
(with its witness or counterexample). -/

/-- `getD` at an in-range index ignores the default. -/
theorem getD_irrel (l : List α) (i : Nat) (d1 d2 : α) (h : i < l.length) :
    l.getD i d1 = l.getD i d2 := by
  rw [List.getD_eq_getElem l d1 h, List.getD_eq_getElem l d2 h]

/-- Writing back the value already stored at an index is the identity. -/
theorem set_getD_self (l : List α) (i : Nat) (d : α) (h : i < l.length) :
    l.set i (l.getD i d) = l := by
  rw [List.getD_eq_getElem l d h]
  apply List.ext_getElem (by simp)
  intro n h1 h2
  rcases eq_or_ne i n with he | hne
  · subst he
    simp
  · exact List.getElem_set_ne hne _

/-- Replacing index `i` and consing the old value is a permutation of
consing the new value. -/
theorem set_cons_perm (d : α) :
    ∀ (t : List α) (i : Nat) (x : α), i < t.length →
      (t.getD i d :: t.set i x).Perm (x :: t) := by
  intro t
  induction t with
  | nil => intro i x h; simp at h
  | cons b t2 ih =>
    intro i x h
    cases i with
    | zero => simpa using List.Perm.swap x b t2
    | succ j =>
      have hj : j < t2.length := by simpa using h
      have h1 : (t2.getD j d :: b :: t2.set j x).Perm
          (b :: t2.getD j d :: t2.set j x) := List.Perm.swap b _ _
      have h2 : (b :: t2.getD j d :: t2.set j x).Perm (b :: x :: t2) :=
        List.Perm.cons b (ih j x hj)
      have h3 : (b :: x :: t2).Perm (x :: b :: t2) := List.Perm.swap x b t2
      simpa using h1.trans (h2.trans h3)

/-- Swapping which of two values lands at index `i` commutes with the cons,
up to permutation. -/
theorem cons_set_perm (a x : α) :
    ∀ (t : List α) (i : Nat), i < t.length →
      (x :: t.set i a).Perm (a :: t.set i x) := by
  intro t
  induction t with
  | nil => intro i h; simp at h
  | cons b t2 ih =>
    intro i h
    cases i with
    | zero => exact List.Perm.swap a x t2
    | succ j =>
      have hj : j < t2.length := by simpa using h
      have h1 : (x :: b :: t2.set j a).Perm (b :: x :: t2.set j a) :=
        List.Perm.swap b x _
      have h2 : (b :: x :: t2.set j a).Perm (b :: a :: t2.set j x) :=
        List.Perm.cons b (ih j hj)
      have h3 : (b :: a :: t2.set j x).Perm (a :: b :: t2.set j x) :=
        List.Perm.swap a b _
      simpa using h1.trans (h2.trans h3)

/-- Moving the value at index `j` to index `i` and then overwriting index
`j` is, up to permutation, just overwriting index `i`. -/
theorem set_set_perm (d : α) :
    ∀ (l : List α) (i j : Nat) (x : α), i ≠ j → i < l.length → j < l.length →
      (((l.set i (l.getD j d)).set j x)).Perm (l.set i x) := by
  intro l
  induction l with
  | nil => intro i j x _ hi _; simp at hi
  | cons a t ih =>
    intro i j x hij hi hj
    cases i with
    | zero =>
      cases j with
      | zero => exact absurd rfl hij
      | succ k =>
        have hk : k < t.length := by simpa using hj
        simpa using set_cons_perm d t k x hk
    | succ m =>
      cases j with
      | zero =>
        have hm : m < t.length := by simpa using hi
        simpa using cons_set_perm a x t m hm
      | succ k =>
        have hm : m < t.length := by simpa using hi
        have hk : k < t.length := by simpa using hj
        have hmk : m ≠ k := by
          intro he; exact hij (by rw [he])
        simpa using List.Perm.cons a (ih m k x hmk hm hk)

/-- `siftdownAux` from `startpos = 0` preserves the array length, moves the
hole upward, and — once the saved `newitem` is written into the final hole —
permutes the array with `newitem` written into the initial hole. -/
theorem siftdownAux_spec (key : α → Int) :
    ∀ (fuel pos : Nat) (heap : List α) (newitem : α), pos < heap.length →
      pos ≤ fuel →
      (siftdownAux key fuel heap 0 pos newitem).1.length = heap.length ∧
      (siftdownAux key fuel heap 0 pos newitem).2 ≤ pos ∧
      ((siftdownAux key fuel heap 0 pos newitem).1.set
        (siftdownAux key fuel heap 0 pos newitem).2 newitem).Perm
        (heap.set pos newitem) := by
  intro fuel
  induction fuel with
  | zero =>
    intro pos heap newitem hpos hfuel
    exact ⟨rfl, le_refl _, List.Perm.refl _⟩
  | succ fuel ih =>
    intro pos heap newitem hpos hfuel
    rw [siftdownAux]
    split
    · next hz =>
      dsimp only
      split
      · next hlt =>
        have hpar : (pos - 1) / 2 < pos := by
          have := Nat.div_le_self (pos - 1) 2
          omega
        have hparlen : (pos - 1) / 2 < heap.length := lt_trans hpar hpos
        have hlen2 : (pos - 1) / 2 <
            (heap.set pos (heap.getD ((pos - 1) / 2) newitem)).length := by
          simpa using hparlen
        obtain ⟨hl, hle, hperm⟩ :=
          ih ((pos - 1) / 2) (heap.set pos (heap.getD ((pos - 1) / 2) newitem))
            newitem hlen2 (by omega)
        refine ⟨by simpa using hl, le_trans hle (le_of_lt hpar), ?_⟩
        refine hperm.trans ?_
        have hd : heap.getD ((pos - 1) / 2) newitem =
            heap.getD ((pos - 1) / 2) default := getD_irrel _ _ _ _ hparlen
        rw [hd]
        exact set_set_perm default heap pos ((pos - 1) / 2) newitem
          (Nat.ne_of_gt hpar) hpos hparlen
      · exact ⟨rfl, le_refl _, List.Perm.refl _⟩
    · exact ⟨rfl, le_refl _, List.Perm.refl _⟩

/-- `siftupAux` preserves the array length, moves the hole strictly downward
within range, and — once a value is written into the final hole — permutes
the array with that value written into the initial hole. -/
theorem siftupAux_spec (key : α → Int) :
    ∀ (fuel endpos : Nat) (heap : List α) (pos : Nat), pos < endpos →
      endpos = heap.length → endpos - pos ≤ fuel →
      (siftupAux key fuel heap pos endpos).1.length = heap.length ∧
      pos ≤ (siftupAux key fuel heap pos endpos).2 ∧
      (siftupAux key fuel heap pos endpos).2 < endpos ∧
      ∀ x : α, ((siftupAux key fuel heap pos endpos).1.set
          (siftupAux key fuel heap pos endpos).2 x).Perm (heap.set pos x) := by
  intro fuel
  induction fuel with
  | zero =>
    intro endpos heap pos hpos hend hfuel
    omega
  | succ fuel ih =>
    intro endpos heap pos hpos hend hfuel
    rw [siftupAux]
    dsimp only
    split
    · next hc =>
      split
      · next hcond =>
        have hr : 2 * pos + 1 + 1 < endpos := by
          have := hcond
          simp only [Bool.and_eq_true, decide_eq_true_eq] at this
          exact this.1
        have hrlen : 2 * pos + 1 + 1 < heap.length := hend ▸ hr
        have hplen : pos < heap.length := hend ▸ hpos
        have hlen2 : endpos = (heap.set pos (heap.getD (2 * pos + 1 + 1) default)).length := by
          simpa using hend
        obtain ⟨hl, hge, hlt, hperm⟩ :=
          ih endpos (heap.set pos (heap.getD (2 * pos + 1 + 1) default))
            (2 * pos + 1 + 1) hr hlen2 (by omega)
        refine ⟨by simpa using hl, by omega, hlt, ?_⟩
        intro x
        refine (hperm x).trans ?_
        exact set_set_perm default heap pos (2 * pos + 1 + 1) x (by omega) hplen hrlen
      · next hcond =>
        have hrlen : 2 * pos + 1 < heap.length := hend ▸ hc
        have hplen : pos < heap.length := hend ▸ hpos
        have hlen2 : endpos = (heap.set pos (heap.getD (2 * pos + 1) default)).length := by
          simpa using hend
        obtain ⟨hl, hge, hlt, hperm⟩ :=
          ih endpos (heap.set pos (heap.getD (2 * pos + 1) default))
            (2 * pos + 1) hc hlen2 (by omega)
        refine ⟨by simpa using hl, by omega, hlt, ?_⟩
        intro x
        refine (hperm x).trans ?_
        exact set_set_perm default heap pos (2 * pos + 1) x (by omega) hplen hrlen
    · exact ⟨rfl, le_refl _, hpos, fun x => List.Perm.refl _⟩

/-- `getD` after `set` at the same in-range index. -/
theorem getD_set_eq (l : List α) (i : Nat) (x d : α) (h : i < l.length) :
    (l.set i x).getD i d = x := by
  rw [List.getD_eq_getElem _ _ (by simpa using h)]
  simp

/-- `getD` after `set` at a different index. -/
theorem getD_set_ne (l : List α) (i j : Nat) (x d : α) (hij : i ≠ j) :
    (l.set i x).getD j d = l.getD j d := by
  rcases Nat.lt_or_ge j l.length with hj | hj
  · rw [List.getD_eq_getElem _ _ (by simpa using hj), List.getD_eq_getElem _ _ hj]
    exact List.getElem_set_ne hij _
  · rw [List.getD_eq_default _ _ (by simpa using hj), List.getD_eq_default _ _ hj]

/-- `siftdown` from `startpos = 0` permutes the array and preserves its
length. -/
theorem siftdown_zero_perm (key : α → Int) (heap : List α) (pos : Nat)
    (h : pos < heap.length) :
    (siftdown key heap 0 pos).Perm heap ∧
    (siftdown key heap 0 pos).length = heap.length := by
  obtain ⟨hl, _, hperm⟩ :=
    siftdownAux_spec key pos pos heap (heap.getD pos default) h (le_refl pos)
  unfold siftdown
  constructor
  · exact hperm.trans (by rw [set_getD_self _ _ _ h])
  · simpa using hl

/-- `heappush` adds exactly the pushed element, up to permutation. -/
theorem heappush_perm (key : α → Int) (h : List α) (x : α) :
    (heappush key h x).Perm (x :: h) := by
  unfold heappush
  have hlen : h.length < (h ++ [x]).length := by simp
  have hp := (siftdown_zero_perm key (h ++ [x]) h.length hlen).1
  exact hp.trans (List.perm_append_singleton x h)

/-- `heappush` grows the array by one. -/
theorem heappush_length (key : α → Int) (h : List α) (x : α) :
    (heappush key h x).length = h.length + 1 := by
  unfold heappush
  have hlen : h.length < (h ++ [x]).length := by simp
  have := (siftdown_zero_perm key (h ++ [x]) h.length hlen).2
  simpa using this

/-- `siftup` from the root permutes the array and preserves its length. -/
theorem siftup_zero_perm (key : α → Int) (heap : List α)
    (h : 0 < heap.length) :
    (siftup key heap 0).Perm heap ∧ (siftup key heap 0).length = heap.length := by
  obtain ⟨hl, _, hlt, hperm⟩ :=
    siftupAux_spec key heap.length heap.length heap 0 h rfl (by omega)
  unfold siftup
  dsimp only
  have hlt2 : (siftupAux key heap.length heap 0 heap.length).2 <
      ((siftupAux key heap.length heap 0 heap.length).1.set
        (siftupAux key heap.length heap 0 heap.length).2 (heap.getD 0 default)).length := by
    simpa [hl] using hlt
  obtain ⟨hp2, hl2⟩ := siftdown_zero_perm key
    ((siftupAux key heap.length heap 0 heap.length).1.set
      (siftupAux key heap.length heap 0 heap.length).2 (heap.getD 0 default))
    (siftupAux key heap.length heap 0 heap.length).2 hlt2
  constructor
  · exact hp2.trans ((hperm _).trans (by rw [set_getD_self _ _ _ h]))
  · rw [hl2]
    simpa using hl

/-- `heappop` on a non-empty heap returns an element and the remaining
array: together they permute the input. -/
theorem heappop_perm (key : α → Int) (h : List α) (r : α) (h2 : List α)
    (hp : heappop key h = some (r, h2)) : h.Perm (r :: h2) := by
  match h with
  | [] => simp [heappop] at hp
  | [a] =>
    have : heappop key [a] = some (a, []) := rfl
    rw [this] at hp
    obtain ⟨rfl, rfl⟩ := by simpa using hp
    rfl
  | a :: b :: t =>
    have hne : (a :: b :: t) ≠ [] := by simp
    have hdl : (a :: b :: t).dropLast = a :: (b :: t).dropLast := rfl
    unfold heappop at hp
    rw [hdl] at hp
    simp only [Option.some.injEq, Prod.mk.injEq] at hp
    obtain ⟨hr, hh2⟩ := hp
    set lastelt := (a :: b :: t).getD ((a :: b :: t).length - 1) default with hle
    have hlast : lastelt = (a :: b :: t).getLast hne := by
      rw [hle, List.getD_eq_getElem _ _ (by simp), List.getLast_eq_getElem]
    have hset : (a :: (b :: t).dropLast).set 0 lastelt =
        lastelt :: (b :: t).dropLast := rfl
    have hpos : 0 < ((a :: (b :: t).dropLast).set 0 lastelt).length := by simp
    have hperm := (siftup_zero_perm key
      ((a :: (b :: t).dropLast).set 0 lastelt) hpos).1
    rw [hh2] at hperm
    have hr2 : a = r := by simpa using hr
    have hfull2 : (a :: b :: t).dropLast ++ [lastelt] = a :: b :: t := by
      rw [hlast]
      exact List.dropLast_append_getLast hne
    have chain : (a :: b :: t).Perm (a :: h2) := by
      conv_lhs => rw [← hfull2, hdl]
      rw [List.cons_append]
      refine List.Perm.cons a ?_
      refine ((List.perm_append_singleton lastelt _).trans ?_)
      rw [← hset]
      exact hperm.symm
    rw [← hr2]
    exact chain

/-- `heappop` shrinks the array by one. -/
theorem heappop_length (key : α → Int) (h : List α) (r : α) (h2 : List α)
    (hp : heappop key h = some (r, h2)) : h2.length + 1 = h.length := by
  have := (heappop_perm key h r h2 hp).length_eq
  simpa using this.symm

/-- A child slot is never slot 0 and determines its parent. -/
theorem childRel_parent {i c : Nat} (h : ChildRel i c) :
    0 < c ∧ i = (c - 1) / 2 := by
  rcases h with h | h <;> omega

/-- In a heap array the root carries a minimal key. -/
theorem isHeap_root_min (key : α → Int) (l : List α) (hh : IsHeap key l) :
    ∀ j : Nat, j < l.length → key (l.getD 0 default) ≤ key (l.getD j default) := by
  intro j
  induction j using Nat.strong_induction_on with
  | _ j ihj =>
    intro hj
    cases Nat.eq_zero_or_pos j with
    | inl hz => rw [hz]
    | inr hpos =>
      have hcr : ChildRel ((j - 1) / 2) j := by
        rcases Nat.even_or_odd j with he | ho
        · right
          obtain ⟨m, hm⟩ := he
          omega
        · left
          obtain ⟨m, hm⟩ := ho
          omega
      have hlt : (j - 1) / 2 < j := by
        have := Nat.div_le_self (j - 1) 2
        omega
      exact le_trans (ihj ((j - 1) / 2) hlt (lt_trans hlt hj)) (hh _ j hj hcr)

/-- Running `siftdownAux` from the root start position on an array
satisfying `SiftdownPre` and writing the saved item into the final hole
restores the heap invariant. -/
theorem siftdownAux_zero_isHeap (key : α → Int) :
    ∀ (fuel pos : Nat) (heap : List α) (newitem : α), pos < heap.length →
      pos ≤ fuel →
      SiftdownPre key heap pos newitem →
      IsHeap key ((siftdownAux key fuel heap 0 pos newitem).1.set
        (siftdownAux key fuel heap 0 pos newitem).2 newitem) := by
  intro fuel
  induction fuel with
  | zero =>
    intro pos heap newitem hpos hfuel hpre
    obtain ⟨hpre1, hpre2⟩ := hpre
    intro i c hclen hcr
    have hclen2 : c < heap.length := by simpa using hclen
    have hcpar := childRel_parent hcr
    have hex : ¬(i = (pos - 1) / 2 ∧ c = pos) := by
      intro hand
      omega
    exact hpre1 i c hclen2 hcr hex
  | succ fuel ih =>
    intro pos heap newitem hpos hfuel hpre
    obtain ⟨hpre1, hpre2⟩ := hpre
    rw [siftdownAux]
    split
    · next hz =>
      dsimp only
      split
      · next hlt =>
        have hpar : (pos - 1) / 2 < pos := by
          have := Nat.div_le_self (pos - 1) 2
          omega
        have hparlen : (pos - 1) / 2 < heap.length := lt_trans hpar hpos
        have hppos : (pos - 1) / 2 ≠ pos := Nat.ne_of_lt hpar
        have hltk : key newitem < key (heap.getD ((pos - 1) / 2) default) := by
          have := of_decide_eq_true hlt
          rwa [getD_irrel heap _ newitem default hparlen] at this
        apply ih ((pos - 1) / 2)
          (heap.set pos (heap.getD ((pos - 1) / 2) newitem)) newitem
          (by simpa using hparlen) (by omega)
        rw [getD_irrel heap _ newitem default hparlen]
        -- abbreviations
        have vA2p : ((heap.set pos (heap.getD ((pos - 1) / 2) default)).set
            ((pos - 1) / 2) newitem).getD ((pos - 1) / 2) default = newitem :=
          getD_set_eq _ _ _ _ (by simpa using hparlen)
        have vA2pos : ((heap.set pos (heap.getD ((pos - 1) / 2) default)).set
            ((pos - 1) / 2) newitem).getD pos default =
            heap.getD ((pos - 1) / 2) default := by
          rw [getD_set_ne _ _ _ _ _ hppos]
          exact getD_set_eq _ _ _ _ hpos
        have vA2 : ∀ k : Nat, k ≠ (pos - 1) / 2 → k ≠ pos →
            ((heap.set pos (heap.getD ((pos - 1) / 2) default)).set
              ((pos - 1) / 2) newitem).getD k default = heap.getD k default := by
          intro k h1 h2
          rw [getD_set_ne _ _ _ _ _ (Ne.symm h1), getD_set_ne _ _ _ _ _ (Ne.symm h2)]
        have vApos : (heap.set pos newitem).getD pos default = newitem :=
          getD_set_eq _ _ _ _ hpos
        have vAp : (heap.set pos newitem).getD ((pos - 1) / 2) default =
            heap.getD ((pos - 1) / 2) default :=
          getD_set_ne _ _ _ _ _ (Ne.symm hppos)
        have vA : ∀ k : Nat, k ≠ pos →
            (heap.set pos newitem).getD k default = heap.getD k default := by
          intro k h2
          exact getD_set_ne _ _ _ _ _ (Ne.symm h2)
        constructor
        · -- first component of the new precondition
          intro i c hclen hcr hnotex
          have hclen2 : c < heap.length := by simpa using hclen
          have hcpar := childRel_parent hcr
          by_cases hcpos : c = pos
          · have hip : i = (pos - 1) / 2 := by omega
            rw [hip, hcpos, vA2p, vA2pos]
            exact le_of_lt hltk
          · by_cases hipos : i = pos
            · have hcp : c ≠ (pos - 1) / 2 := by omega
              rw [hipos, vA2pos, vA2 c hcp hcpos]
              have := hpre2 c (by rw [hipos] at hcr; exact hcr) hclen2
              rwa [vAp, vA c hcpos] at this
            · by_cases hip : i = (pos - 1) / 2
              · have hcp : c ≠ (pos - 1) / 2 := by omega
                rw [hip, vA2p, vA2 c hcp hcpos]
                have hpc : ¬(i = (pos - 1) / 2 ∧ c = pos) := fun hand => hcpos hand.2
                have := hpre1 i c hclen2 hcr hpc
                rw [hip, vAp, vA c hcpos] at this
                exact le_trans (le_of_lt hltk) this
              · by_cases hcp : c = (pos - 1) / 2
                · exact absurd (And.intro (by omega : i = ((pos - 1) / 2 - 1) / 2) hcp) hnotex
                · rw [vA2 i hip hipos, vA2 c hcp hcpos]
                  have hpc : ¬(i = (pos - 1) / 2 ∧ c = pos) := fun hand => hipos (by omega)
                  have := hpre1 i c hclen2 hcr hpc
                  rwa [vA i hipos, vA c hcpos] at this
        · -- second component: grandparent property at the new hole
          intro c hcr hclen
          have hclen2 : c < heap.length := by simpa using hclen
          have hcpar := childRel_parent hcr
          by_cases hp0 : (pos - 1) / 2 = 0
          · have hgp : ((pos - 1) / 2 - 1) / 2 = (pos - 1) / 2 := by omega
            rw [hgp, vA2p]
            by_cases hcpos : c = pos
            · rw [hcpos, vA2pos]
              exact le_of_lt hltk
            · have hcp : c ≠ (pos - 1) / 2 := by omega
              rw [vA2 c hcp hcpos]
              have hpc : ¬((pos - 1) / 2 = (pos - 1) / 2 ∧ c = pos) :=
                fun hand => hcpos hand.2
              have := hpre1 ((pos - 1) / 2) c hclen2 hcr hpc
              rw [vAp, vA c hcpos] at this
              exact le_trans (le_of_lt hltk) this
          · have hgplt : ((pos - 1) / 2 - 1) / 2 < (pos - 1) / 2 := by
              have := Nat.div_le_self ((pos - 1) / 2 - 1) 2
              omega
            have hgpos : ((pos - 1) / 2 - 1) / 2 ≠ pos := by omega
            have hgpp : ((pos - 1) / 2 - 1) / 2 ≠ (pos - 1) / 2 := Nat.ne_of_lt hgplt
            rw [vA2 _ hgpp hgpos]
            have hcrgp : ChildRel (((pos - 1) / 2 - 1) / 2) ((pos - 1) / 2) := by
              rcases Nat.even_or_odd ((pos - 1) / 2) with he | ho
              · right
                obtain ⟨m, hm⟩ := he
                omega
              · left
                obtain ⟨m, hm⟩ := ho
                omega
            have hstep1 : key (heap.getD (((pos - 1) / 2 - 1) / 2) default) ≤
                key (heap.getD ((pos - 1) / 2) default) := by
              have hpc : ¬(((pos - 1) / 2 - 1) / 2 = (pos - 1) / 2 ∧
                  (pos - 1) / 2 = pos) := fun hand => hppos hand.2
              have := hpre1 _ _ hparlen hcrgp hpc
              rwa [vA _ hgpos, vAp] at this
            by_cases hcpos : c = pos
            · rw [hcpos, vA2pos]
              exact hstep1
            · have hcp : c ≠ (pos - 1) / 2 := by omega
              rw [vA2 c hcp hcpos]
              have hpc : ¬((pos - 1) / 2 = (pos - 1) / 2 ∧ c = pos) :=
                fun hand => hcpos hand.2
              have := hpre1 ((pos - 1) / 2) c hclen2 hcr hpc
              rw [vAp, vA c hcpos] at this
              exact le_trans hstep1 this
      · next hlt =>
        -- exit: the parent key is at most the new item
        intro i c hclen hcr
        have hclen2 : c < heap.length := by simpa using hclen
        have hpar : (pos - 1) / 2 < pos := by
          have := Nat.div_le_self (pos - 1) 2
          omega
        have hparlen : (pos - 1) / 2 < heap.length := lt_trans hpar hpos
        have hppos : (pos - 1) / 2 ≠ pos := Nat.ne_of_lt hpar
        have hgek : key (heap.getD ((pos - 1) / 2) default) ≤ key newitem := by
          have hb : ¬ (key newitem < key (heap.getD ((pos - 1) / 2) newitem)) := by
            intro hcon
            exact hlt (by simpa [hLt] using hcon)
          rw [getD_irrel heap _ newitem default hparlen] at hb
          omega
        by_cases hex : i = (pos - 1) / 2 ∧ c = pos
        · obtain ⟨hi, hc⟩ := hex
          rw [hi, hc, getD_set_ne _ _ _ _ _ (Ne.symm hppos),
            getD_set_eq _ _ _ _ hpos]
          exact hgek
        · exact hpre1 i c hclen2 hcr hex
    · next hz =>
      -- pos = 0: no parent pair can be exempt
      intro i c hclen hcr
      have hclen2 : c < heap.length := by simpa using hclen
      have hcpar := childRel_parent hcr
      have hex : ¬(i = (pos - 1) / 2 ∧ c = pos) := by
        intro hand
        omega
      exact hpre1 i c hclen2 hcr hex

/-- The boolean comparison unfolded, true case. -/
theorem hLt_eq_true_iff (key : α → Int) (a b : α) :
    hLt key a b = true ↔ key a < key b := by
  simp [hLt]

/-- The boolean comparison unfolded, false case. -/
theorem hLt_eq_false_iff (key : α → Int) (a b : α) :
    hLt key a b = false ↔ key b ≤ key a := by
  simp [hLt, not_lt]

/-- `heappush` preserves the heap invariant. -/
theorem isHeap_heappush (key : α → Int) (h : List α) (x : α)
    (hh : IsHeap key h) : IsHeap key (heappush key h x) := by
  unfold heappush siftdown
  dsimp only
  have hxd : (h ++ [x]).getD h.length default = x := by
    rw [List.getD_eq_getElem _ _ (by simp)]
    simp
  have hlen : h.length < (h ++ [x]).length := by simp
  apply siftdownAux_zero_isHeap key h.length h.length (h ++ [x]) _ hlen (le_refl _)
  have hset : (h ++ [x]).set h.length ((h ++ [x]).getD h.length default) =
      h ++ [x] := set_getD_self _ _ _ hlen
  constructor
  · intro i c hclen hcr hnotex
    rw [hset]
    have hcpar := childRel_parent hcr
    have hclt : c < h.length := by
      rcases Nat.lt_or_ge c h.length with hlt2 | hge
      · exact hlt2
      · exfalso
        have hceq : c = h.length := by
          simp only [List.length_append, List.length_cons, List.length_nil] at hclen
          omega
        exact hnotex ⟨by omega, hceq⟩
    have hilt : i < h.length := by omega
    rw [List.getD_append _ _ _ _ hilt, List.getD_append _ _ _ _ hclt]
    exact hh i c hclt hcr
  · intro c hcr hclen
    rcases hcr with hcr | hcr <;>
      (simp only [List.length_append, List.length_cons, List.length_nil] at hclen; omega)

/-- `siftupAux` keeps its precondition and ends at a childless hole. -/
theorem siftupAux_post (key : α → Int) :
    ∀ (fuel endpos : Nat) (heap : List α) (pos : Nat), pos < endpos →
      endpos = heap.length → endpos - pos ≤ fuel → SiftupPre key heap pos →
      SiftupPre key (siftupAux key fuel heap pos endpos).1
        (siftupAux key fuel heap pos endpos).2 ∧
      ¬(2 * (siftupAux key fuel heap pos endpos).2 + 1 < endpos) := by
  intro fuel
  induction fuel with
  | zero =>
    intro endpos heap pos hpos hend hfuel hpre
    omega
  | succ fuel ih =>
    intro endpos heap pos hpos hend hfuel hpre
    obtain ⟨hq1, hq2⟩ := hpre
    rw [siftupAux]
    dsimp only
    split
    · next hc =>
      split
      · next hcond =>
        simp only [Bool.and_eq_true, Bool.not_eq_true', decide_eq_true_eq] at hcond
        obtain ⟨hr, hcmp⟩ := hcond
        have hmin : key (heap.getD (2 * pos + 1 + 1) default) ≤
            key (heap.getD (2 * pos + 1) default) :=
          (hLt_eq_false_iff key _ _).mp hcmp
        have hplen : pos < heap.length := hend ▸ hpos
        have hrlen : 2 * pos + 1 + 1 < heap.length := hend ▸ hr
        refine ih endpos
          (heap.set pos (heap.getD (2 * pos + 1 + 1) default)) (2 * pos + 1 + 1)
          hr (by simpa using hend) (by omega) ⟨?_, ?_⟩
        · intro i c hclen hcr hi hc2
          have hclen2 : c < heap.length := by simpa using hclen
          have hcpar := childRel_parent hcr
          by_cases hipos : i = pos
          · have hcne : c ≠ pos := by omega
            rw [hipos, getD_set_eq _ _ _ _ hplen, getD_set_ne _ _ _ _ _ (Ne.symm hcne)]
            have hcother : c = 2 * pos + 1 := by omega
            rw [hcother]
            exact hmin
          · by_cases hcpos : c = pos
            · have hine : i ≠ pos := hipos
              rw [getD_set_ne _ _ _ _ _ (Ne.symm hine), hcpos,
                getD_set_eq _ _ _ _ hplen]
              have hcr2 : ChildRel pos (2 * pos + 1 + 1) := by
                right
                omega
              have := hq2 (2 * pos + 1 + 1) hcr2 (hend ▸ hr) (by omega)
              have hieq : i = (pos - 1) / 2 := by omega
              rwa [← hieq] at this
            · rw [getD_set_ne _ _ _ _ _ (Ne.symm hipos),
                getD_set_ne _ _ _ _ _ (Ne.symm hcpos)]
              exact hq1 i c hclen2 hcr hipos hcpos
        · intro c hcr hclen hcpos2
          have hclen2 : c < heap.length := by simpa using hclen
          have hcpar := childRel_parent hcr
          have hpar : (2 * pos + 1 + 1 - 1) / 2 = pos := by omega
          rw [hpar, getD_set_eq _ _ _ _ hplen]
          have hcne : c ≠ pos := by omega
          rw [getD_set_ne _ _ _ _ _ (Ne.symm hcne)]
          exact hq1 (2 * pos + 1 + 1) c hclen2 hcr (by omega) hcne
      · next hcond =>
        simp only [Bool.and_eq_true, Bool.not_eq_true', decide_eq_true_eq,
          not_and, Bool.not_eq_false] at hcond
        have hplen : pos < heap.length := hend ▸ hpos
        have hllen : 2 * pos + 1 < heap.length := hend ▸ hc
        refine ih endpos
          (heap.set pos (heap.getD (2 * pos + 1) default)) (2 * pos + 1)
          hc (by simpa using hend) (by omega) ⟨?_, ?_⟩
        · intro i c hclen hcr hi hc2
          have hclen2 : c < heap.length := by simpa using hclen
          have hcpar := childRel_parent hcr
          by_cases hipos : i = pos
          · have hcne : c ≠ pos := by omega
            rw [hipos, getD_set_eq _ _ _ _ hplen, getD_set_ne _ _ _ _ _ (Ne.symm hcne)]
            have hcother : c = 2 * pos + 1 + 1 := by omega
            have hrlen : 2 * pos + 1 + 1 < endpos := by omega
            have hcmp := hcond hrlen
            have := (hLt_eq_true_iff key _ _).mp hcmp
            rw [hcother]
            exact le_of_lt this
          · by_cases hcpos : c = pos
            · rw [getD_set_ne _ _ _ _ _ (Ne.symm hipos), hcpos,
                getD_set_eq _ _ _ _ hplen]
              have hcr2 : ChildRel pos (2 * pos + 1) := by
                left
                omega
              have := hq2 (2 * pos + 1) hcr2 hllen (by omega)
              have hieq : i = (pos - 1) / 2 := by omega
              rwa [← hieq] at this
            · rw [getD_set_ne _ _ _ _ _ (Ne.symm hipos),
                getD_set_ne _ _ _ _ _ (Ne.symm hcpos)]
              exact hq1 i c hclen2 hcr hipos hcpos
        · intro c hcr hclen hcpos2
          have hclen2 : c < heap.length := by simpa using hclen
          have hcpar := childRel_parent hcr
          have hpar : (2 * pos + 1 - 1) / 2 = pos := by omega
          rw [hpar, getD_set_eq _ _ _ _ hplen]
          have hcne : c ≠ pos := by omega
          rw [getD_set_ne _ _ _ _ _ (Ne.symm hcne)]
          exact hq1 (2 * pos + 1) c hclen2 hcr (by omega) hcne
    · next hc =>
      exact ⟨⟨hq1, hq2⟩, hc⟩

/-- `siftup` from the root restores the heap invariant given its
precondition. -/
theorem siftup_zero_isHeap (key : α → Int) (heap : List α)
    (hpos : 0 < heap.length) (hpre : SiftupPre key heap 0) :
    IsHeap key (siftup key heap 0) := by
  obtain ⟨hl, hge, hlt, hperm⟩ :=
    siftupAux_spec key heap.length heap.length heap 0 hpos rfl (by omega)
  obtain ⟨⟨hq1, hq2⟩, hnoc⟩ :=
    siftupAux_post key heap.length heap.length heap 0 hpos rfl (by omega) hpre
  unfold siftup
  dsimp only
  have hlen2 : (siftupAux key heap.length heap 0 heap.length).2 <
      ((siftupAux key heap.length heap 0 heap.length).1.set
        (siftupAux key heap.length heap 0 heap.length).2 (heap.getD 0 default)).length := by
    simpa [hl] using hlt
  apply siftdownAux_zero_isHeap key _ _ _ _ hlen2 (le_refl _)
  have hnew : ((siftupAux key heap.length heap 0 heap.length).1.set
      (siftupAux key heap.length heap 0 heap.length).2 (heap.getD 0 default)).getD
      (siftupAux key heap.length heap 0 heap.length).2 default = heap.getD 0 default :=
    getD_set_eq _ _ _ _ (by simpa [hl] using hlt)
  rw [hnew]
  unfold SiftdownPre
  rw [List.set_set]
  constructor
  · intro i c hclen hcr hnotex
    have hclen2 : c < (siftupAux key heap.length heap 0 heap.length).1.length := by
      simpa using hclen
    have hcpar := childRel_parent hcr
    by_cases hipos : i = (siftupAux key heap.length heap 0 heap.length).2
    · exfalso
      have : c < heap.length := by rwa [hl] at hclen2
      omega
    · by_cases hcpos : c = (siftupAux key heap.length heap 0 heap.length).2
      · exact absurd ⟨by omega, hcpos⟩ hnotex
      · rw [getD_set_ne _ _ _ _ _ (Ne.symm hipos),
          getD_set_ne _ _ _ _ _ (Ne.symm hcpos)]
        exact hq1 i c hclen2 hcr hipos hcpos
  · intro c hcr hclen
    have hclen2 : c < (siftupAux key heap.length heap 0 heap.length).1.length := by
      simpa using hclen
    have hcpar := childRel_parent hcr
    exfalso
    have : c < heap.length := by rwa [hl] at hclen2
    omega

/-- `heappop` preserves the heap invariant on the remaining array. -/
theorem isHeap_heappop (key : α → Int) (h : List α) (r : α) (h2 : List α)
    (hh : IsHeap key h) (hp : heappop key h = some (r, h2)) :
    IsHeap key h2 := by
  match h with
  | [] => simp [heappop] at hp
  | [a] =>
    have : heappop key [a] = some (a, []) := rfl
    rw [this] at hp
    obtain ⟨rfl, rfl⟩ := by simpa using hp
    intro i c hclen hcr
    simp at hclen
  | a :: b :: t =>
    have hdl : (a :: b :: t).dropLast = a :: (b :: t).dropLast := rfl
    unfold heappop at hp
    rw [hdl] at hp
    simp only [Option.some.injEq, Prod.mk.injEq] at hp
    obtain ⟨hr, hh2⟩ := hp
    rw [← hh2]
    set lastelt := (a :: b :: t).getD ((a :: b :: t).length - 1) default with hle
    have hpos : 0 < ((a :: (b :: t).dropLast).set 0 lastelt).length := by simp
    apply siftup_zero_isHeap key _ hpos
    constructor
    · intro i c hclen hcr hi hc2
      have hcpar := childRel_parent hcr
      have hilen : i < (a :: (b :: t).dropLast).length := by
        simp only [List.length_set] at hclen
        omega
      have hclen2 : c < (a :: (b :: t).dropLast).length := by
        simpa using hclen
      have hfull : (a :: (b :: t).dropLast).length + 1 = (a :: b :: t).length := by
        simp
      have hvi : ((a :: (b :: t).dropLast).set 0 lastelt).getD i default =
          (a :: b :: t).getD i default := by
        rw [getD_set_ne _ _ _ _ _ (Ne.symm hi)]
        rw [← hdl]
        rw [List.getD_eq_getElem _ _ (by simpa [hdl] using hilen),
          List.getD_eq_getElem _ _ (by simp at hilen ⊢; omega)]
        exact List.getElem_dropLast _ _ _
      have hvc : ((a :: (b :: t).dropLast).set 0 lastelt).getD c default =
          (a :: b :: t).getD c default := by
        rw [getD_set_ne _ _ _ _ _ (Ne.symm hc2)]
        rw [← hdl]
        rw [List.getD_eq_getElem _ _ (by simpa [hdl] using hclen2),
          List.getD_eq_getElem _ _ (by simp at hclen2 ⊢; omega)]
        exact List.getElem_dropLast _ _ _
      rw [hvi, hvc]
      exact hh i c (by simp at hfull hclen2 ⊢; omega) hcr
    · intro c hcr hclen hzero
      omega

/-- Every queue state the engine can produce satisfies the heap invariant. -/
theorem heapReach_isHeap (key : α → Int) (h : List α)
    (hr : HeapReach key h) : IsHeap key h := by
  induction hr with
  | empty => intro i c hc _; simp at hc
  | push x _ ih => exact isHeap_heappush key _ x ih
  | pop _ hp ih => exact isHeap_heappop key _ _ _ ih hp

/-- `heappop` returns the array's first element. -/
theorem heappop_root (key : α → Int) (h : List α) (r : α) (h2 : List α)
    (hp : heappop key h = some (r, h2)) : r = h.getD 0 default := by
  match h with
  | [] => simp [heappop] at hp
  | [a] =>
    have : heappop key [a] = some (a, []) := rfl
    rw [this] at hp
    obtain ⟨rfl, rfl⟩ := by simpa using hp
    rfl
  | a :: b :: t =>
    have hdl : (a :: b :: t).dropLast = a :: (b :: t).dropLast := rfl
    unfold heappop at hp
    rw [hdl] at hp
    simp only [Option.some.injEq, Prod.mk.injEq] at hp
    obtain ⟨hr, _⟩ := hp
    rw [← hr]
    rfl

/-- On a heap, `heappop` returns an element whose key is minimal. -/
theorem heappop_min (key : α → Int) (h : List α) (r : α) (h2 : List α)
    (hh : IsHeap key h) (hp : heappop key h = some (r, h2)) :
    ∀ x ∈ h, key r ≤ key x := by
  intro x hx
  obtain ⟨n, hn, he⟩ := List.mem_iff_getElem.mp hx
  have hroot := isHeap_root_min key h hh n hn
  rw [heappop_root key h r h2 hp]
  rw [List.getD_eq_getElem _ _ hn] at hroot
  rw [he] at hroot
  exact hroot

/-- C1 (counterexample): four equal-priority casualty requests pushed in
order `crA, crB, crC, crD` pop in order `crA, crC, crB, crD` — `crC` is
popped before `crB` although `crB` was inserted earlier with the same
priority, so pops are not FIFO within a priority level (the dispatch heap
compares only `priority`; arrival order is `compare=False` and CPython
`heapq` is not stable). -/
theorem C1_counterexample :
    drainHeap casKey 4 (pushAll casKey [] [crA, crB, crC, crD]) =
      [crA, crC, crB, crD] ∧
    crA.priority = crB.priority ∧ crB.priority = crC.priority ∧
    crC.priority = crD.priority ∧
    drainHeap casKey 4 (pushAll casKey [] [crA, crB, crC, crD]) ≠
      [crA, crB, crC, crD] := by
  refine ⟨by decide, rfl, rfl, rfl, by decide⟩

/-- C1 (amended): for every dispatch priority queue state reachable through
`heapq.heappush` / `heapq.heappop` (casualty, recovery and ammo queues
alike, instantiating `key` with the request's `priority`), popping returns a
request whose numeric priority value is minimal among all queued requests,
and the pop removes exactly that request (the rest is preserved up to heap
reordering); equal-priority ties follow the binary-heap array order, not
insertion order. -/
theorem C1_queue_pop_min {β : Type} [Inhabited β] (key : β → Int)
    (h : List β) (hr : HeapReach key h) (r : β) (h2 : List β)
    (hp : heappop key h = some (r, h2)) :
    (∀ x ∈ h, key r ≤ key x) ∧ h.Perm (r :: h2) :=
  ⟨heappop_min key h r h2 (heapReach_isHeap key h hr) hp,
    heappop_perm key h r h2 hp⟩

/-- Witness for C1 (amended) at the four-request casualty queue: the pop
returns `crA`, whose priority is minimal, and the queue contents are
preserved. -/
theorem C1_queue_pop_min_witness :
    (∀ x ∈ pushAll casKey [] [crA, crB, crC, crD], casKey crA ≤ casKey x) ∧
    (pushAll casKey [] [crA, crB, crC, crD]).Perm (crA :: [crC, crB, crD]) :=
  C1_queue_pop_min casKey (pushAll casKey [] [crA, crB, crC, crD])
    (HeapReach.push crD (HeapReach.push crC (HeapReach.push crB
      (HeapReach.push crA HeapReach.empty))))
    crA [crC, crB, crD] (by decide)

/-- `heappop` never fails on a non-empty list. -/
theorem heappop_ne_none (key : α → Int) (a : α) (t : List α) :
    heappop key (a :: t) ≠ none := by
  unfold heappop
  cases hr : (a :: t).dropLast <;> simp

/-- Folding `heappush` over a list adds exactly its elements. -/
theorem foldl_heappush_perm (key : α → Int) :
    ∀ (l acc : List α),
      (l.foldl (fun h x => heappush key h x) acc).Perm (acc ++ l) := by
  intro l
  induction l with
  | nil => intro acc; simp
  | cons x xs ih =>
    intro acc
    have h1 := ih (heappush key acc x)
    have h2 : ((heappush key acc x) ++ xs).Perm ((x :: acc) ++ xs) :=
      (heappush_perm key acc x).append_right xs
    have h3 : ((x :: acc) ++ xs).Perm (acc ++ x :: xs) := by
      rw [List.cons_append]
      exact List.perm_middle.symm
    exact (h1.trans h2).trans h3

/-- The scan loop of `_recovery_process`: a kept request is towable and the
pop removes exactly it; when nothing is towable the queue is fully drained
into the buffer, all of it incompatible. -/
theorem findSuitableAux_spec (tow : String) :
    ∀ (fuel : Nat) (queue temp : List RecoveryRequest),
      queue.length ≤ fuel →
      (∀ x ∈ temp, canTow tow x.vehicle_class = false) →
      (∀ r q t, findSuitableAux tow fuel queue temp = (some r, q, t) →
        canTow tow r.vehicle_class = true ∧
        (queue ++ temp).Perm (r :: (q ++ t))) ∧
      (∀ q t, findSuitableAux tow fuel queue temp = (none, q, t) →
        q = [] ∧ (queue ++ temp).Perm t ∧
        ∀ x ∈ t, canTow tow x.vehicle_class = false) := by
  intro fuel
  induction fuel with
  | zero =>
    intro queue temp hlen htemp
    have hq : queue = [] := List.length_eq_zero.mp (Nat.le_zero.mp hlen)
    subst hq
    constructor
    · intro r q t hres
      simp [findSuitableAux] at hres
    · intro q t hres
      simp only [findSuitableAux, Prod.mk.injEq] at hres
      obtain ⟨_, hq, ht⟩ := hres
      refine ⟨hq.symm, ?_, ht ▸ htemp⟩
      rw [← ht]
      simp
  | succ fuel ih =>
    intro queue temp hlen htemp
    match queue with
    | [] =>
      constructor
      · intro r q t hres
        simp [findSuitableAux, heappop] at hres
      · intro q t hres
        simp only [findSuitableAux, heappop, Prod.mk.injEq] at hres
        obtain ⟨_, hq, ht⟩ := hres
        refine ⟨hq.symm, ?_, ht ▸ htemp⟩
        rw [← ht]
        simp
    | a :: tl =>
      cases hpop : heappop recKey (a :: tl) with
      | none => exact absurd hpop (heappop_ne_none recKey a tl)
      | some pr =>
        obtain ⟨r0, rest⟩ := pr
        have hperm0 : (a :: tl).Perm (r0 :: rest) :=
          heappop_perm recKey (a :: tl) r0 rest hpop
        have hlen0 : rest.length + 1 = (a :: tl).length :=
          heappop_length recKey (a :: tl) r0 rest hpop
        by_cases hct : canTow tow r0.vehicle_class = true
        · have hres0 : findSuitableAux tow (fuel + 1) (a :: tl) temp =
              (some r0, rest, temp) := by
            simp [findSuitableAux, hpop, hct]
          constructor
          · intro r q t hres
            rw [hres0] at hres
            simp only [Prod.mk.injEq, Option.some.injEq] at hres
            obtain ⟨hr, hq, ht⟩ := hres
            subst hr
            subst hq
            subst ht
            refine ⟨hct, ?_⟩
            have := hperm0.append_right temp
            simpa using this
          · intro q t hres
            rw [hres0] at hres
            simp at hres
        · have hctf : canTow tow r0.vehicle_class = false :=
            Bool.eq_false_iff.mpr hct
          have hres0 : findSuitableAux tow (fuel + 1) (a :: tl) temp =
              findSuitableAux tow fuel rest (temp ++ [r0]) := by
            simp [findSuitableAux, hpop, hctf]
          have htemp2 : ∀ x ∈ temp ++ [r0], canTow tow x.vehicle_class = false := by
            intro x hx
            rcases List.mem_append.mp hx with hx | hx
            · exact htemp x hx
            · rw [List.mem_singleton.mp hx]
              exact hctf
          have hlen2 : rest.length ≤ fuel := by
            simp only [List.length_cons] at hlen hlen0
            omega
          obtain ⟨ihs, ihn⟩ := ih rest (temp ++ [r0]) hlen2 htemp2
          have hshuffle : ((a :: tl) ++ temp).Perm (rest ++ (temp ++ [r0])) := by
            have h1 : ((a :: tl) ++ temp).Perm ((r0 :: rest) ++ temp) :=
              hperm0.append_right temp
            have h2 : (r0 :: rest) ++ temp = r0 :: (rest ++ temp) := rfl
            have h3 : (r0 :: (rest ++ temp)).Perm ((rest ++ temp) ++ [r0]) :=
              (List.perm_append_singleton r0 (rest ++ temp)).symm
            have h4 : (rest ++ temp) ++ [r0] = rest ++ (temp ++ [r0]) := by
              rw [List.append_assoc]
            exact (h1.trans (h2 ▸ h3)).trans (h4 ▸ List.Perm.refl _)
          constructor
          · intro r q t hres
            rw [hres0] at hres
            obtain ⟨hc, hp⟩ := ihs r q t hres
            exact ⟨hc, hshuffle.trans hp⟩
          · intro q t hres
            rw [hres0] at hres
            obtain ⟨hq, hp, ht⟩ := ihn q t hres
            exact ⟨hq, hshuffle.trans hp, ht⟩

/-- C8: in every reachable state, a recovery vehicle only services (tows)
breakdowns whose vehicle class is no heavier than its tow-capacity class:
the compatibility-filtered pop of `_recovery_process` returns a request only
if `_can_tow` holds for it — equivalently the ordinal order
light < medium < heavy puts the broken class at or below the tow class —
and it removes exactly that request, re-inserting every skipped request
unchanged; when no compatible request exists, the queue is preserved and
every queued request is incompatible. -/
theorem C8_recovery_tow_compat (tow : String) (queue : List RecoveryRequest) :
    (∀ r q2, findSuitable tow queue = (some r, q2) →
      canTow tow r.vehicle_class = true ∧
      classOrder r.vehicle_class ≤ classOrder tow ∧
      queue.Perm (r :: q2)) ∧
    (∀ q2, findSuitable tow queue = (none, q2) →
      queue.Perm q2 ∧ ∀ r ∈ queue, canTow tow r.vehicle_class = false) := by
  obtain ⟨hs, hn⟩ := findSuitableAux_spec tow queue.length queue [] (le_refl _)
    (by intro x hx; simp at hx)
  constructor
  · intro r q2 hres
    unfold findSuitable at hres
    rcases hres2 : findSuitableAux tow queue.length queue [] with ⟨s, q, t⟩
    rw [hres2] at hres
    simp only [Prod.mk.injEq] at hres
    obtain ⟨hseq, hq2⟩ := hres
    subst hseq
    obtain ⟨hcan, hperm⟩ := hs r q t (by rw [hres2])
    refine ⟨hcan, ?_, ?_⟩
    · have := of_decide_eq_true hcan
      exact this
    · have hfold : q2.Perm (q ++ t) := by
        rw [← hq2]
        exact foldl_heappush_perm recKey t q
      have hq0 : queue.Perm (r :: (q ++ t)) := by
        have := hperm
        simpa using this
      exact hq0.trans (List.Perm.cons r hfold.symm)
  · intro q2 hres
    unfold findSuitable at hres
    rcases hres2 : findSuitableAux tow queue.length queue [] with ⟨s, q, t⟩
    rw [hres2] at hres
    simp only [Prod.mk.injEq] at hres
    obtain ⟨hseq, hq2⟩ := hres
    subst hseq
    obtain ⟨hq, hperm, ht⟩ := hn q t (by rw [hres2])
    subst hq
    have hfold : q2.Perm t := by
      rw [← hq2]
      simpa using foldl_heappush_perm recKey t []
    have hqt : queue.Perm t := by simpa using hperm
    refine ⟨hqt.trans hfold.symm, ?_⟩
    intro r hr
    exact ht r (hqt.mem_iff.mp hr)

/-- Witness for C8: a medium recovery vehicle scanning a queue holding a
priority-1 heavy breakdown and a priority-2 light breakdown skips the heavy
one (which it cannot tow), keeps the light one, and the heavy request is
re-inserted unchanged. -/
theorem C8_recovery_tow_compat_witness :
    canTow "medium"
      (⟨2, 12, "BD_0002", "Y", "light"⟩ : RecoveryRequest).vehicle_class = true ∧
    classOrder
      (⟨2, 12, "BD_0002", "Y", "light"⟩ : RecoveryRequest).vehicle_class ≤
      classOrder "medium" ∧
    (pushAll recKey [] [⟨1, 10, "BD_0001", "X", "heavy"⟩,
      ⟨2, 12, "BD_0002", "Y", "light"⟩]).Perm
      ((⟨2, 12, "BD_0002", "Y", "light"⟩ : RecoveryRequest) ::
        [⟨1, 10, "BD_0001", "X", "heavy"⟩]) :=
  (C8_recovery_tow_compat "medium"
    (pushAll recKey [] [⟨1, 10, "BD_0001", "X", "heavy"⟩,
      ⟨2, 12, "BD_0002", "Y", "light"⟩])).1
    ⟨2, 12, "BD_0002", "Y", "light"⟩ [⟨1, 10, "BD_0001", "X", "heavy"⟩]
    (by decide)

/-- An adjacency target is a node name of the graph. -/
theorem adjW_endpoints (g : List (String × String × ℚ)) (u w : String) (d : ℚ)
    (h : adjW g u w = some d) : w ∈ gNodes g := by
  unfold adjW at h
  cases hf : g.reverse.find? (edgeConnects u w) with
  | none => rw [hf] at h; simp at h
  | some e =>
    have hp := List.find?_some hf
    have hm : e ∈ g := List.mem_reverse.mp (List.mem_of_find?_eq_some hf)
    unfold edgeConnects at hp
    simp only [Bool.or_eq_true, Bool.and_eq_true, beq_iff_eq] at hp
    unfold gNodes
    rcases hp with ⟨h1, h2⟩ | ⟨h1, h2⟩
    · exact List.mem_append.mpr (Or.inr (List.mem_map.mpr ⟨e, hm, h2⟩))
    · exact List.mem_append.mpr (Or.inl (List.mem_map.mpr ⟨e, hm, h1⟩))

/-- Neighbour-list entries are exactly the adjacency facts. -/
theorem nbrs_sound (g : List (String × String × ℚ)) (u w : String) (d : ℚ)
    (h : (w, d) ∈ nbrs g u) : adjW g u w = some d := by
  unfold nbrs at h
  obtain ⟨a, _, hmap⟩ := List.mem_filterMap.mp h
  cases hadj : adjW g u a with
  | none => rw [hadj] at hmap; simp at hmap
  | some d2 =>
    rw [hadj] at hmap
    simp only [Option.map, Option.some.injEq, Prod.mk.injEq] at hmap
    obtain ⟨rfl, rfl⟩ := hmap
    exact hadj

/-- Every adjacency fact appears in the neighbour list. -/
theorem nbrs_complete (g : List (String × String × ℚ)) (u w : String) (d : ℚ)
    (h : adjW g u w = some d) : (w, d) ∈ nbrs g u := by
  unfold nbrs
  apply List.mem_filterMap.mpr
  refine ⟨w, List.mem_dedup.mpr (adjW_endpoints g u w d h), by rw [h]; rfl⟩

/-- Soundness of the path-weight enumeration: every enumerated weight is the
weight of an actual duplicate-free path. -/
theorem weightsTo_sound (g : List (String × String × ℚ)) :
    ∀ (fuel : Nat) (u v : String) (vis : List String) (w : ℚ),
      w ∈ weightsTo g fuel u v vis → ∃ p, PW g v u vis p w := by
  intro fuel
  induction fuel with
  | zero => intro u v vis w h; simp [weightsTo] at h
  | succ fuel ih =>
    intro u v vis w h
    rw [weightsTo] at h
    by_cases huv : u = v
    · rw [if_pos huv] at h
      have hw : w = 0 := List.mem_singleton.mp h
      subst hw
      subst huv
      exact ⟨[u], PW.refl vis⟩
    · rw [if_neg huv] at h
      obtain ⟨pr, hpr, hmem⟩ := List.mem_flatMap.mp h
      obtain ⟨hprn, hprv⟩ := List.mem_filter.mp hpr
      obtain ⟨r, hr, hw⟩ := List.mem_map.mp hmem
      obtain ⟨p, hp⟩ := ih pr.1 v (pr.1 :: vis) r hr
      have hadj : adjW g u pr.1 = some pr.2 :=
        nbrs_sound g u pr.1 pr.2 (by simpa using hprn)
      have hnv : pr.1 ∉ vis := by simpa using hprv
      exact ⟨u :: p, hw ▸ PW.cons hadj hnv huv hp⟩

/-- Shape of a `PW` path: it starts at its source and its tail is
duplicate-free, avoids the visited set, and consists of graph node names. -/
theorem PW_shape (g : List (String × String × ℚ)) {v u : String}
    {vis p : List String} {w : ℚ} (h : PW g v u vis p w) :
    ∃ p2, p = u :: p2 ∧ p2.Nodup ∧ ∀ x ∈ p2, x ∉ vis ∧ x ∈ gNodes g := by
  induction h with
  | refl vis0 => exact ⟨[], rfl, List.nodup_nil, by simp⟩
  | @cons u2 w2 vis2 p2 d2 r2 hadj hnv hneq hsub ih =>
    obtain ⟨p3, hp3, hnd, hall⟩ := ih
    subst hp3
    refine ⟨w2 :: p3, rfl, ?_, ?_⟩
    · refine List.nodup_cons.mpr ⟨?_, hnd⟩
      intro hmem
      exact (hall w2 hmem).1 (List.mem_cons_self w2 vis2)
    · intro x hx
      rcases List.mem_cons.mp hx with rfl | hx2
      · exact ⟨hnv, adjW_endpoints g u2 x d2 hadj⟩
      · have := hall x hx2
        exact ⟨fun hv => this.1 (List.mem_cons_of_mem w2 hv), this.2⟩

/-- Completeness of the path-weight enumeration for sufficient fuel. -/
theorem weightsTo_complete (g : List (String × String × ℚ)) {v u : String}
    {vis p : List String} {w : ℚ} (h : PW g v u vis p w) :
    ∀ fuel : Nat, p.length ≤ fuel → w ∈ weightsTo g fuel u v vis := by
  induction h with
  | refl vis0 =>
    intro fuel hf
    match fuel with
    | 0 => simp at hf
    | fuel + 1 =>
      rw [weightsTo, if_pos rfl]
      simp
  | @cons u2 w2 vis2 p2 d2 r2 hadj hnv hneq hsub ih =>
    intro fuel hf
    match fuel with
    | 0 => simp at hf
    | fuel + 1 =>
      rw [weightsTo, if_neg hneq]
      apply List.mem_flatMap.mpr
      refine ⟨(w2, d2), ?_, ?_⟩
      · apply List.mem_filter.mpr
        exact ⟨nbrs_complete g u2 w2 d2 hadj, by simpa using hnv⟩
      · apply List.mem_map.mpr
        exact ⟨r2, ih fuel (by simp only [List.length_cons] at hf; omega), rfl⟩

/-- `minQ` fails exactly on the empty list. -/
theorem minQ_none_iff (l : List ℚ) : minQ l = none ↔ l = [] := by
  cases l with
  | nil => simp [minQ]
  | cons x xs =>
    cases h : minQ xs <;> simp [minQ, h]

/-- `minQ` returns a member below every member. -/
theorem minQ_some_spec (l : List ℚ) (m : ℚ) (h : minQ l = some m) :
    m ∈ l ∧ ∀ x ∈ l, m ≤ x := by
  induction l generalizing m with
  | nil => simp [minQ] at h
  | cons x xs ih =>
    rw [minQ] at h
    cases hm : minQ xs with
    | none =>
      rw [hm] at h
      simp only [Option.some.injEq] at h
      subst h
      have hnil := (minQ_none_iff xs).mp hm
      subst hnil
      exact ⟨by simp, by simp⟩
    | some m2 =>
      rw [hm] at h
      simp only [Option.some.injEq] at h
      obtain ⟨hmem2, hall2⟩ := ih m2 hm
      constructor
      · rcases le_total x m2 with hle | hle
        · rw [← h, min_eq_left hle]
          exact List.mem_cons_self x xs
        · rw [← h, min_eq_right hle]
          exact List.mem_cons_of_mem x hmem2
      · intro y hy
        rcases List.mem_cons.mp hy with rfl | hmemy
        · rw [← h]
          exact min_le_left _ _
        · rw [← h]
          exact le_trans (min_le_right _ _) (hall2 y hmemy)

/-- Any `PW` path fits inside the fuel used by `spDist`. -/
theorem PW_length_le (g : List (String × String × ℚ)) {v u : String}
    {vis p : List String} {w : ℚ} (h : PW g v u vis p w) :
    p.length ≤ (gNodes g).dedup.length + 1 := by
  obtain ⟨p2, hp2, hnd, hall⟩ := PW_shape g h
  subst hp2
  simp only [List.length_cons]
  have hsub : p2 ⊆ (gNodes g).dedup := by
    intro x hx
    exact List.mem_dedup.mpr (hall x hx).2
  have := (List.subperm_of_subset hnd hsub).length_le
  omega

/-- C5: `_calculate_travel_time` returns 0 for same-node queries; for
distinct nodes it returns the `⊤` (infinity) sentinel exactly when no path
connects them in the graph built from the scenario edges (weighted by
effective distance `distance_km * terrain_factor`); and whenever the
shortest-path distance `d` exists — `d` is the weight of some connecting
path and is minimal among all connecting paths — the travel time is
`d / speed * 60` minutes. -/
theorem C5_travel_time (edges : List EdgeE) (f t : String) (s : ℚ)
    (hs : 0 < s) :
    calcTravelTime (buildGraph edges) f f s = 0 ∧
    (f ≠ t →
      (calcTravelTime (buildGraph edges) f t s = ⊤ ↔
        ¬∃ p w, PW (buildGraph edges) t f [f] p w)) ∧
    (f ≠ t → ∀ d : ℚ, spDist (buildGraph edges) f t = some d →
      (∃ p, PW (buildGraph edges) t f [f] p d) ∧
      (∀ p w, PW (buildGraph edges) t f [f] p w → d ≤ w) ∧
      calcTravelTime (buildGraph edges) f t s = some (d / s * 60)) := by
  refine ⟨by simp [calcTravelTime], ?_, ?_⟩
  · intro hne
    unfold calcTravelTime
    rw [if_neg hne]
    cases hsd : spDist (buildGraph edges) f t with
    | none =>
      constructor
      · intro _
        rintro ⟨p, w, hpw⟩
        have hmem := weightsTo_complete (buildGraph edges) hpw _
          (PW_length_le (buildGraph edges) hpw)
        unfold spDist at hsd
        have hnil := (minQ_none_iff _).mp hsd
        rw [hnil] at hmem
        simp at hmem
      · intro _
        rfl
    | some d =>
      constructor
      · intro htop
        exact absurd htop (by simp)
      · intro hnex
        exfalso
        unfold spDist at hsd
        obtain ⟨hmem, _⟩ := minQ_some_spec _ _ hsd
        obtain ⟨p, hp⟩ := weightsTo_sound (buildGraph edges) _ _ _ _ _ hmem
        exact hnex ⟨p, d, hp⟩
  · intro hne d hsd
    refine ⟨?_, ?_, ?_⟩
    · unfold spDist at hsd
      obtain ⟨hmem, _⟩ := minQ_some_spec _ _ hsd
      exact weightsTo_sound (buildGraph edges) _ _ _ _ _ hmem
    · intro p w hpw
      unfold spDist at hsd
      obtain ⟨_, hmin⟩ := minQ_some_spec _ _ hsd
      exact hmin w (weightsTo_complete (buildGraph edges) hpw _
        (PW_length_le (buildGraph edges) hpw))
    · unfold calcTravelTime
      rw [if_neg hne, hsd]

/-- Witness for C5 on a concrete network: from `A` to `C` the shortest
effective distance is 4 (via `B`: 2 km at terrain 1.5 plus 1 km), beating
the direct 10 km road, so a 60 km/h vehicle needs 4 minutes. -/
theorem C5_travel_time_witness :
    calcTravelTime (buildGraph edgesW) "A" "A" (60 : ℚ) = 0 ∧
    ((∃ p, PW (buildGraph edgesW) "C" "A" ["A"] p 4) ∧
      (∀ p w, PW (buildGraph edgesW) "C" "A" ["A"] p w → (4 : ℚ) ≤ w) ∧
      calcTravelTime (buildGraph edgesW) "A" "C" (60 : ℚ) =
        some ((4 : ℚ) / 60 * 60)) :=
  ⟨(C5_travel_time edgesW "A" "A" 60 (by norm_num)).1,
    (C5_travel_time edgesW "A" "C" 60 (by norm_num)).2.2
      (by decide) 4
      (by norm_num [spDist, weightsTo, minQ, nbrs, adjW, gNodes, buildGraph,
        edgesW, edgeConnects, effectiveKm, List.dedup, List.filterMap,
        List.flatMap, List.filter, List.find?])⟩


/-- The invariant is monotone in the clock. -/
theorem casInv_mono {n1 n2 : ℚ} (h : n1 ≤ n2) {c : CasualtyRec}
    (hc : CasInv n1 c) : CasInv n2 c := by
  obtain ⟨h1, h2, h3, h4, h5⟩ := hc
  exact ⟨le_trans h1 h,
    fun t ht => ⟨(h2 t ht).1, le_trans (h2 t ht).2 h⟩,
    fun t ht => ⟨le_trans (h3 t ht).1 h, (h3 t ht).2⟩,
    fun t ht => ⟨le_trans (h4 t ht).1 h, (h4 t ht).2⟩,
    fun t ht => ⟨le_trans (h5 t ht).1 h, (h5 t ht).2⟩⟩

/-- The invariant implies the claimed monotone chain. -/
theorem casInv_casMonotone {now : ℚ} {c : CasualtyRec} (h : CasInv now c) :
    CasMonotone c := by
  obtain ⟨h1, h2, h3, h4, h5⟩ := h
  refine ⟨fun tc htc => (h2 tc htc).1, ?_, ?_⟩
  · intro tc td htc htd
    obtain ⟨_, tc2, htc2, hle⟩ := h3 td htd
    rw [htc] at htc2
    cases Option.some.inj htc2
    exact hle
  · intro td tt htd htt
    obtain ⟨_, td2, htd2, hle⟩ := h5 tt htt
    rw [htd] at htd2
    cases Option.some.inj htd2
    exact hle

/-- One engine step preserves the invariant for every registered casualty. -/
theorem casStep_inv {s s2 : CasState} (hstep : CasStep s s2)
    (hinv : ∀ c ∈ s.casualties, CasInv s.now c) :
    ∀ c ∈ s2.casualties, CasInv s2.now c := by
  cases hstep with
  | advance d hd =>
    intro c hc
    exact casInv_mono (le_add_of_nonneg_right hd) (hinv c hc)
  | generate id p loc mech =>
    intro c hc
    rcases List.mem_append.mp hc with h | h
    · exact hinv c h
    · rw [List.mem_singleton.mp h]
      refine ⟨le_refl _, ?_, ?_, ?_, ?_⟩ <;>
        (intro t ht; simp [freshCasualty] at ht)
  | collect i vid c0 hc0 hpre =>
    intro c hc
    rcases List.mem_or_eq_of_mem_set hc with h | h
    · exact hinv c h
    · subst h
      obtain ⟨h1, h2, h3, h4, h5⟩ := hinv c0 (List.get?_mem hc0)
      refine ⟨h1, ?_, ?_, ?_, ?_⟩
      · intro t ht
        simp only [collectCas, Option.some.injEq] at ht
        subst ht
        exact ⟨h1, le_refl _⟩
      · intro t ht
        obtain ⟨_, tc, htc, _⟩ := h3 t ht
        rw [hpre] at htc
        simp at htc
      · intro t ht
        exact h4 t ht
      · intro t ht
        obtain ⟨_, td, htd, _⟩ := h5 t ht
        obtain ⟨_, tc, htc, _⟩ := h3 td htd
        rw [hpre] at htc
        simp at htc
  | deliver i node c0 hc0 hcol hpre =>
    intro c hc
    rcases List.mem_or_eq_of_mem_set hc with h | h
    · exact hinv c h
    · subst h
      obtain ⟨h1, h2, h3, h4, h5⟩ := hinv c0 (List.get?_mem hc0)
      refine ⟨h1, ?_, ?_, ?_, ?_⟩
      · intro t ht
        exact h2 t ht
      · intro t ht
        simp only [deliverCas, Option.some.injEq] at ht
        subst ht
        obtain ⟨tc, htc⟩ := Option.ne_none_iff_exists'.mp hcol
        exact ⟨le_refl _, tc, htc, (h2 tc htc).2⟩
      · intro t ht
        obtain ⟨_, td, htd, _⟩ := h4 t ht
        rw [hpre] at htd
        simp at htd
      · intro t ht
        obtain ⟨_, td, htd, _⟩ := h5 t ht
        rw [hpre] at htd
        simp at htd
  | treatStart i c0 hc0 hdel hpre =>
    intro c hc
    rcases List.mem_or_eq_of_mem_set hc with h | h
    · exact hinv c h
    · subst h
      obtain ⟨h1, h2, h3, h4, h5⟩ := hinv c0 (List.get?_mem hc0)
      refine ⟨h1, ?_, ?_, ?_, ?_⟩
      · intro t ht
        exact h2 t ht
      · intro t ht
        exact h3 t ht
      · intro t ht
        simp only [startTreatCas, Option.some.injEq] at ht
        subst ht
        obtain ⟨td, htd⟩ := Option.ne_none_iff_exists'.mp hdel
        exact ⟨le_refl _, td, htd, (h3 td htd).1⟩
      · intro t ht
        exact h5 t ht
  | treatFinish i c0 hc0 hst hpre =>
    intro c hc
    rcases List.mem_or_eq_of_mem_set hc with h | h
    · exact hinv c h
    · subst h
      obtain ⟨h1, h2, h3, h4, h5⟩ := hinv c0 (List.get?_mem hc0)
      refine ⟨h1, ?_, ?_, ?_, ?_⟩
      · intro t ht
        exact h2 t ht
      · intro t ht
        exact h3 t ht
      · intro t ht
        exact h4 t ht
      · intro t ht
        simp only [finishTreatCas, Option.some.injEq] at ht
        subst ht
        obtain ⟨ts, hts⟩ := Option.ne_none_iff_exists'.mp hst
        obtain ⟨hts2, td, htd, htd2⟩ := h4 ts hts
        exact ⟨le_refl _, td, htd, le_trans htd2 hts2⟩

/-- C6: in every reachable engine state — in particular in the final entity
registry of a run — every casualty record has monotone lifecycle timestamps:
`time_generated ≤ time_collected ≤ time_delivered ≤ time_treatment_completed`
whenever the respective fields are set, unset fields imposing no
constraint. -/
theorem C6_casualty_timestamps (s : CasState) (h : CasReachable s) :
    ∀ c ∈ s.casualties, CasMonotone c := by
  have key : ∀ c ∈ s.casualties, CasInv s.now c := by
    induction h with
    | init => intro c hc; simp at hc
    | step hr hstep ih => exact casStep_inv hstep ih
  intro c hc
  exact casInv_casMonotone (key c hc)

/-- Witness for C6: the casualty generated at minute 3, collected at 5,
delivered at 9, treated from 10 to 20, is reachable and satisfies the
monotone chain. -/
theorem C6_casualty_timestamps_witness : CasMonotone witCasualty := by
  have h0 : CasReachable ⟨0, []⟩ := CasReachable.init
  have h1 := CasReachable.step h0 (CasStep.advance ⟨0, []⟩ 3 (by norm_num))
  have h2 := CasReachable.step h1 (CasStep.generate _ "CAS_0001" 1 "A" "Unknown")
  have h3 := CasReachable.step h2 (CasStep.advance _ 2 (by norm_num))
  have h4 := CasReachable.step h3 (CasStep.collect _ 0 "AMB1" _ rfl rfl)
  have h5 := CasReachable.step h4 (CasStep.advance _ 4 (by norm_num))
  have h6 := CasReachable.step h5
    (CasStep.deliver _ 0 "M" _ rfl (by simp [collectCas, freshCasualty]) rfl)
  have h7 := CasReachable.step h6 (CasStep.advance _ 1 (by norm_num))
  have h8 := CasReachable.step h7
    (CasStep.treatStart _ 0 _ rfl (by simp [deliverCas, collectCas]) rfl)
  have h9 := CasReachable.step h8 (CasStep.advance _ 10 (by norm_num))
  have h10 := CasReachable.step h9
    (CasStep.treatFinish _ 0 _ rfl (by simp [startTreatCas]) rfl)
  have h11 : CasReachable ⟨20, [witCasualty]⟩ := by
    convert h10 using 2 <;>
      norm_num [witCasualty, freshCasualty, collectCas, deliverCas,
        startTreatCas, finishTreatCas]
  exact C6_casualty_timestamps ⟨20, [witCasualty]⟩ h11 witCasualty (by simp)


/-- C7: every reachable ammo-request record satisfies the conservation
property `0 ≤ quantity_delivered ≤ quantity_requested` (the delivered
quantity is `min(requested, capacity)` when delivered and 0 otherwise), and
`is_fulfilled` holds exactly when `quantity_delivered ≥ quantity_requested`. -/
theorem C7_ammo_conservation (r : AmmoRequestRec) (h : AmmoReach r) :
    0 ≤ r.quantity_delivered ∧
    r.quantity_delivered ≤ r.quantity_requested ∧
    (isFulfilled r = true ↔ r.quantity_requested ≤ r.quantity_delivered) := by
  have key : 0 ≤ r.quantity_requested ∧ 0 ≤ r.quantity_delivered ∧
      r.quantity_delivered ≤ r.quantity_requested := by
    induction h with
    | created id location q t p hq => exact ⟨hq, le_refl 0, hq⟩
    | dispatched t vid hr ih => exact ih
    | loaded t node hr ih => exact ih
    | delivered t cap hcap hr hnone ih =>
      exact ⟨ih.1, le_min ih.1 hcap, min_le_left _ _⟩
  exact ⟨key.2.1, key.2.2, by simp [isFulfilled]⟩

/-- Witness for C7: a request for 100 units delivered by a vehicle of
capacity 40 satisfies the conservation property (40 delivered, unfulfilled). -/
theorem C7_ammo_conservation_witness :
    0 ≤ (deliverAmmo (dispatchAmmo (mkAmmoRequest "AMMO_0001" "COMBAT_A" 100 5 2)
        6 "LOG1") 9 40).quantity_delivered ∧
    (deliverAmmo (dispatchAmmo (mkAmmoRequest "AMMO_0001" "COMBAT_A" 100 5 2)
        6 "LOG1") 9 40).quantity_delivered ≤
      (deliverAmmo (dispatchAmmo (mkAmmoRequest "AMMO_0001" "COMBAT_A" 100 5 2)
        6 "LOG1") 9 40).quantity_requested ∧
    (isFulfilled (deliverAmmo (dispatchAmmo
        (mkAmmoRequest "AMMO_0001" "COMBAT_A" 100 5 2) 6 "LOG1") 9 40) = true ↔
      (deliverAmmo (dispatchAmmo (mkAmmoRequest "AMMO_0001" "COMBAT_A" 100 5 2)
        6 "LOG1") 9 40).quantity_requested ≤
      (deliverAmmo (dispatchAmmo (mkAmmoRequest "AMMO_0001" "COMBAT_A" 100 5 2)
        6 "LOG1") 9 40).quantity_delivered) :=
  C7_ammo_conservation _
    (AmmoReach.delivered 9 40 (by decide)
      (AmmoReach.dispatched 6 "LOG1"
        (AmmoReach.created "AMMO_0001" "COMBAT_A" 100 5 2 (by decide)))
      rfl)


/-- Keyed update inside an association list commutes with `lookup`. -/
theorem lookup_map_upd {β : Type} (l : List (String × β)) (k : String)
    (f : β → β) :
    (l.map (fun p => if p.1 == k then (p.1, f p.2) else p)).lookup k =
      (l.lookup k).map f := by
  induction l with
  | nil => rfl
  | cons p l ih =>
    rcases p with ⟨a, b⟩
    rw [List.map_cons]
    cases hbk : a == k with
    | true =>
      have hk : a = k := by simpa using hbk
      subst hk
      rw [if_pos (by simp)]
      simp [List.lookup]
    | false =>
      rw [if_neg (by simp [hbk])]
      have hne : a ≠ k := by simpa using hbk
      have hk2 : (k == a) = false := by simpa using (Ne.symm hne)
      simp only [List.lookup, hk2]
      exact ih

/-- C9: when the logistics process pops an ammo request and no ammo point is
reachable, the engine takes the stockout branch: exactly one `stockout` event
is appended to the log, the vehicle rejoins the idle pool in state `idle` at
its unchanged location, the popped request (a minimal-priority element of the
queue) is dropped permanently — the remaining queue is exactly the popped
remainder, nothing is re-inserted — the registry of ammo-request records is
untouched (timestamps and `quantity_delivered` stay as they were), and the
run continues (the step yields a successor state rather than aborting). -/
theorem C9_stockout_drop (nodes : List MNode) (g : List (String × String × ℚ))
    (st : LogisticsState) (vid : String) (req : AmmoDeliveryRequest)
    (q2 : List AmmoDeliveryRequest) (vr : VRuntime)
    (h1 : heappop ammoKey st.ammo_queue = some (req, q2))
    (h2 : getVRL st vid = some vr)
    (h3 : findNearestAmmoPoint g nodes vr.current_location = none) :
    logisticsDispatchOnce nodes g st vid =
      some (stockoutBranch st vid req q2) ∧
    (stockoutBranch st vid req q2).ammo_queue = q2 ∧
    st.ammo_queue.Perm (req :: q2) ∧
    (stockoutBranch st vid req q2).log =
      st.log ++ [⟨st.now, "stockout", req.ammo_request, some req.location⟩] ∧
    vid ∈ (stockoutBranch st vid req q2).idle_logistics ∧
    getVRL (stockoutBranch st vid req q2) vid =
      some { vr with state := "idle" } ∧
    (stockoutBranch st vid req q2).ammo_requests = st.ammo_requests ∧
    (stockoutBranch st vid req q2).now = st.now := by
  refine ⟨?_, rfl, heappop_perm ammoKey st.ammo_queue req q2 h1, rfl, ?_, ?_,
    rfl, rfl⟩
  · unfold logisticsDispatchOnce
    rw [h1, h2]
    simp [h3]
  · simp [stockoutBranch, setVRL]
  · simp only [stockoutBranch, setVRL, getVRL]
    rw [lookup_map_upd _ vid (fun v => ({ v with state := "idle" } : VRuntime)),
      lookup_map_upd _ vid
        (fun v => ({ v with state := "transiting_unladen" } : VRuntime))]
    simp only [getVRL] at h2
    rw [h2]
    rfl

/-- Witness for C9: the single pending request of `stW` hits a stockout (no
ammo point exists), is dropped, and truck `LOG1` ends idle at `X`. -/
theorem C9_stockout_drop_witness :
    logisticsDispatchOnce [] [] stW "LOG1" =
      some (stockoutBranch stW "LOG1" ⟨2, 40, "AMMO_0001", "X", 100⟩ []) ∧
    (stockoutBranch stW "LOG1" ⟨2, 40, "AMMO_0001", "X", 100⟩ []).ammo_queue =
      [] ∧
    stW.ammo_queue.Perm [⟨2, 40, "AMMO_0001", "X", 100⟩] ∧
    (stockoutBranch stW "LOG1" ⟨2, 40, "AMMO_0001", "X", 100⟩ []).log =
      stW.log ++ [⟨stW.now, "stockout", "AMMO_0001", some "X"⟩] ∧
    "LOG1" ∈
      (stockoutBranch stW "LOG1" ⟨2, 40, "AMMO_0001", "X", 100⟩
        []).idle_logistics ∧
    getVRL (stockoutBranch stW "LOG1" ⟨2, 40, "AMMO_0001", "X", 100⟩ [])
        "LOG1" =
      some ⟨⟨"log_t", "ammo_logistics", "medium", 50, 40, 5, 5⟩,
        "idle", "X", [], 0⟩ ∧
    (stockoutBranch stW "LOG1" ⟨2, 40, "AMMO_0001", "X", 100⟩
      []).ammo_requests = stW.ammo_requests ∧
    (stockoutBranch stW "LOG1" ⟨2, 40, "AMMO_0001", "X", 100⟩ []).now =
      stW.now :=
  C9_stockout_drop [] [] stW "LOG1" ⟨2, 40, "AMMO_0001", "X", 100⟩ []
    ⟨⟨"log_t", "ammo_logistics", "medium", 50, 40, 5, 5⟩, "idle", "X", [], 0⟩
    rfl rfl rfl


/-- C10: `to_dict` merges the details map over the core fields.  A detail
entry keyed `time_mins` overwrites the exported event time (witnessed by a
concrete event whose exported time 99 differs from its actual time 5), while
for any event whose detail keys avoid the four core names the export is
exactly the core fields plus the details. -/
theorem C10_to_dict_merge :
    ((⟨5, "casualty_generated", "CAS_0001", some "A",
        [("time_mins", JVal.jNum 99)]⟩ : SimEventE).details.lookup
          "time_mins").isSome = true ∧
    toDictLookup
        ⟨5, "casualty_generated", "CAS_0001", some "A",
          [("time_mins", JVal.jNum 99)]⟩ "time_mins" ≠
      some (JVal.jNum
        (⟨5, "casualty_generated", "CAS_0001", some "A",
          [("time_mins", JVal.jNum 99)]⟩ : SimEventE).time_mins) ∧
    (∀ e : SimEventE, (∀ k ∈ coreKeys, e.details.lookup k = none) →
      (∀ k, k ∈ coreKeys → toDictLookup e k = coreLookup e k) ∧
      (∀ k v, e.details.lookup k = some v → toDictLookup e k = some v) ∧
      (∀ k, k ∉ coreKeys → e.details.lookup k = none →
        toDictLookup e k = none)) := by
  refine ⟨by decide, by decide, ?_⟩
  intro e hcore
  refine ⟨?_, ?_, ?_⟩
  · intro k hk
    simp [toDictLookup, hcore k hk]
  · intro k v hv
    simp [toDictLookup, hv]
  · intro k hk hnone
    have h1 : k ≠ "time_mins" := fun h => hk (by simp [coreKeys, h])
    have h2 : k ≠ "event_type" := fun h => hk (by simp [coreKeys, h])
    have h3 : k ≠ "entity_id" := fun h => hk (by simp [coreKeys, h])
    have h4 : k ≠ "location" := fun h => hk (by simp [coreKeys, h])
    simp [toDictLookup, hnone, coreLookup, h1, h2, h3, h4]

/-- Witness for C10: an event with the disjoint detail key `quantity`
exports its true time, its detail value, and nothing under unknown keys. -/
theorem C10_to_dict_merge_witness :
    toDictLookup ⟨7, "stockout", "AMMO_0001", none,
        [("quantity", JVal.jInt 40)]⟩ "time_mins" =
      coreLookup ⟨7, "stockout", "AMMO_0001", none,
        [("quantity", JVal.jInt 40)]⟩ "time_mins" ∧
    toDictLookup ⟨7, "stockout", "AMMO_0001", none,
        [("quantity", JVal.jInt 40)]⟩ "quantity" = some (JVal.jInt 40) ∧
    toDictLookup ⟨7, "stockout", "AMMO_0001", none,
        [("quantity", JVal.jInt 40)]⟩ "vehicle" = none :=
  ⟨(C10_to_dict_merge.2.2 ⟨7, "stockout", "AMMO_0001", none,
      [("quantity", JVal.jInt 40)]⟩ (by decide)).1 "time_mins" (by decide),
    (C10_to_dict_merge.2.2 ⟨7, "stockout", "AMMO_0001", none,
      [("quantity", JVal.jInt 40)]⟩ (by decide)).2.1 "quantity"
      (JVal.jInt 40) (by decide),
    (C10_to_dict_merge.2.2 ⟨7, "stockout", "AMMO_0001", none,
      [("quantity", JVal.jInt 40)]⟩ (by decide)).2.2 "vehicle" (by decide)
      (by decide)⟩


/-- Characterisation of the SimPy scheduler key comparison: lexicographic on
`(time, priority, eid)`. -/
theorem schedLt_iff {a b : SchedItem} : schedLt a b = true ↔
    (a.time < b.time ∨ (a.time = b.time ∧
      (a.prio < b.prio ∨ (a.prio = b.prio ∧ a.eid < b.eid)))) := by
  unfold schedLt
  split_ifs with h1 h2 h3 h4
  · simp [h1]
  · simp [h1, ne_of_gt h2]
  · have ht : a.time = b.time := le_antisymm (not_lt.mp h2) (not_lt.mp h1)
    simp [ht, h3]
  · have ht : a.time = b.time := le_antisymm (not_lt.mp h2) (not_lt.mp h1)
    have hp : a.prio ≠ b.prio := by omega
    simp [ht, h3, hp]
  · have ht : a.time = b.time := le_antisymm (not_lt.mp h2) (not_lt.mp h1)
    have hp : a.prio = b.prio := by omega
    simp [ht, hp]

/-- The comparison is irreflexive. -/
theorem schedLt_irrefl (a : SchedItem) : schedLt a a = false := by
  simp [schedLt]

/-- The comparison is asymmetric. -/
theorem schedLt_asymm {a b : SchedItem} (h : schedLt a b = true) :
    schedLt b a = false := by
  rw [Bool.eq_false_iff]
  intro h2
  rw [schedLt_iff] at h h2
  rcases h with h | ⟨ht, h⟩ <;> rcases h2 with h2 | ⟨ht2, h2⟩
  · exact absurd h (asymm h2)
  · rw [ht2] at h; exact absurd h (lt_irrefl _)
  · rw [ht] at h2; exact absurd h2 (lt_irrefl _)
  · omega

/-- Failure of the comparison is transitive (it is the reverse lexicographic
weak order). -/
theorem schedLt_false_trans {a b c : SchedItem} (h1 : schedLt a b = false)
    (h2 : schedLt b c = false) : schedLt a c = false := by
  have hn1 : ¬ (a.time < b.time ∨ (a.time = b.time ∧
      (a.prio < b.prio ∨ (a.prio = b.prio ∧ a.eid < b.eid)))) :=
    fun hx => Bool.false_ne_true (h1.symm.trans (schedLt_iff.mpr hx))
  have hn2 : ¬ (b.time < c.time ∨ (b.time = c.time ∧
      (b.prio < c.prio ∨ (b.prio = c.prio ∧ b.eid < c.eid)))) :=
    fun hx => Bool.false_ne_true (h2.symm.trans (schedLt_iff.mpr hx))
  apply Bool.eq_false_iff.mpr
  intro hac0
  have hac := schedLt_iff.mp hac0
  clear hac0
  rcases hac with hlt | ⟨ht, hin⟩
  · rcases lt_trichotomy a.time b.time with hb | hb | hb
    · exact hn1 (Or.inl hb)
    · exact hn2 (Or.inl (hb ▸ hlt))
    · exact hn2 (Or.inl (lt_trans hb hlt))
  · have hba : ¬ a.time < b.time := fun hx => hn1 (Or.inl hx)
    have hcb : ¬ b.time < c.time := fun hx => hn2 (Or.inl hx)
    have htb : b.time = a.time := by
      rcases lt_trichotomy a.time b.time with hb | hb | hb
      · exact absurd hb hba
      · exact hb.symm
      · exact absurd (ht ▸ hb : b.time < c.time) hcb
    have h1p : ¬ (a.prio < b.prio ∨ (a.prio = b.prio ∧ a.eid < b.eid)) :=
      fun hx => hn1 (Or.inr ⟨htb.symm, hx⟩)
    have h2p : ¬ (b.prio < c.prio ∨ (b.prio = c.prio ∧ b.eid < c.eid)) :=
      fun hx => hn2 (Or.inr ⟨htb.trans ht, hx⟩)
    omega

/-- With distinct event ids the comparison is total. -/
theorem schedLt_total {a b : SchedItem} (h : a.eid ≠ b.eid) :
    schedLt a b = true ∨ schedLt b a = true := by
  rw [schedLt_iff, schedLt_iff]
  rcases lt_trichotomy a.time b.time with ht | ht | ht
  · exact Or.inl (Or.inl ht)
  · rcases lt_trichotomy a.prio b.prio with hp | hp | hp
    · exact Or.inl (Or.inr ⟨ht, Or.inl hp⟩)
    · rcases lt_trichotomy a.eid b.eid with he | he | he
      · exact Or.inl (Or.inr ⟨ht, Or.inr ⟨hp, he⟩⟩)
      · exact absurd he h
      · exact Or.inr (Or.inr ⟨ht.symm, Or.inr ⟨hp.symm, he⟩⟩)
    · exact Or.inr (Or.inr ⟨ht.symm, Or.inl hp⟩)
  · exact Or.inr (Or.inl ht)

/-- `selMin` fails exactly on the empty schedule. -/
theorem selMin_none_iff (l : List SchedItem) : selMin l = none ↔ l = [] := by
  cases l with
  | nil => simp [selMin]
  | cons x xs =>
    rw [selMin]
    cases h : selMin xs with
    | none => simp
    | some p =>
      rcases p with ⟨m2, rest2⟩
      dsimp only
      split <;> simp

/-- The item `selMin` extracts is a member below which no scheduled item
compares. -/
theorem selMin_spec (l : List SchedItem) (m : SchedItem)
    (q : List SchedItem) (h : selMin l = some (m, q)) :
    m ∈ l ∧ ∀ y ∈ l, schedLt y m = false := by
  induction l generalizing m q with
  | nil => simp [selMin] at h
  | cons x xs ih =>
    rw [selMin] at h
    cases hm : selMin xs with
    | none =>
      rw [hm] at h
      simp only [Option.some.injEq, Prod.mk.injEq] at h
      obtain ⟨rfl, rfl⟩ := h
      have hnil := (selMin_none_iff xs).mp hm
      subst hnil
      refine ⟨by simp, ?_⟩
      intro y hy
      rw [List.mem_singleton.mp hy]
      exact schedLt_irrefl x
    | some p =>
      rcases p with ⟨m2, rest2⟩
      rw [hm] at h
      obtain ⟨hmem2, hall2⟩ := ih m2 rest2 hm
      by_cases hcmp : schedLt m2 x = true
      · simp only [hcmp, if_true] at h
        simp only [Option.some.injEq, Prod.mk.injEq] at h
        obtain ⟨rfl, rfl⟩ := h
        refine ⟨List.mem_cons_of_mem x hmem2, ?_⟩
        intro y hy
        rcases List.mem_cons.mp hy with rfl | hy2
        · exact schedLt_asymm hcmp
        · exact hall2 y hy2
      · simp only [hcmp, if_false, Option.some.injEq, Prod.mk.injEq] at h
        obtain ⟨rfl, rfl⟩ := h
        refine ⟨List.mem_cons_self _ _, ?_⟩
        intro y hy
        rcases List.mem_cons.mp hy with rfl | hy2
        · exact schedLt_irrefl y
        · exact schedLt_false_trans (hall2 y hy2)
            (Bool.not_eq_true _ ▸ (by simpa using hcmp))

/-- C2: the embedded `SimulationEngine.run` is a deterministic function of
the scenario — two executions of the same scenario yield logs of the same
length, the same ordered event kinds, and identical casualty, breakdown and
ammo-request registries — and the scheduler pop that drives it is
implementation-independent: on schedules with distinct event ids (SimPy's
strictly increasing tie-break counter), any two arrangements of the same
pending events yield the same popped event. -/
theorem C2_run_determinism :
    (∀ (sc : MiniScenario) (fuel : Nat) (r1 r2 : RunResult),
      r1 = runEngine sc fuel → r2 = runEngine sc fuel →
      r1.log.length = r2.log.length ∧ eventKinds r1 = eventKinds r2 ∧
      r1.core.casualties = r2.core.casualties ∧
      r1.core.breakdowns = r2.core.breakdowns ∧
      r1.core.ammo_requests = r2.core.ammo_requests) ∧
    (∀ l1 l2 : List SchedItem, l1.Perm l2 →
      (l1.map (fun s => s.eid)).Nodup →
      ∀ m1 q1 m2 q2, selMin l1 = some (m1, q1) → selMin l2 = some (m2, q2) →
        m1 = m2) := by
  constructor
  · intro sc fuel r1 r2 h1 h2
    subst h1
    subst h2
    exact ⟨rfl, rfl, rfl, rfl, rfl⟩
  · intro l1 l2 hperm hnodup m1 q1 m2 q2 hs1 hs2
    obtain ⟨hm1, hmin1⟩ := selMin_spec l1 m1 q1 hs1
    obtain ⟨hm2, hmin2⟩ := selMin_spec l2 m2 q2 hs2
    by_contra hne
    have hm2l1 : m2 ∈ l1 := hperm.symm.subset hm2
    have hm1l2 : m1 ∈ l2 := hperm.subset hm1
    have heid : m1.eid ≠ m2.eid := by
      intro he
      exact hne (List.inj_on_of_nodup_map hnodup hm1 hm2l1 he)
    rcases schedLt_total heid with hlt | hlt
    · rw [hmin2 m1 hm1l2] at hlt
      exact absurd hlt (by simp)
    · rw [hmin1 m2 hm2l1] at hlt
      exact absurd hlt (by simp)

/-- Witness for C2: two evaluations of the cap scenario agree, and the two
orderings of a two-element schedule with equal times pop the same item (the
one with the smaller event id). -/
theorem C2_run_determinism_witness :
    ((runEngine scC3 200).log.length = (runEngine scC3 200).log.length ∧
      eventKinds (runEngine scC3 200) = eventKinds (runEngine scC3 200) ∧
      (runEngine scC3 200).core.casualties =
        (runEngine scC3 200).core.casualties ∧
      (runEngine scC3 200).core.breakdowns =
        (runEngine scC3 200).core.breakdowns ∧
      (runEngine scC3 200).core.ammo_requests =
        (runEngine scC3 200).core.ammo_requests) ∧
    (⟨5, 1, 1, ProcK.demand []⟩ : SchedItem) =
      ⟨5, 1, 1, ProcK.demand []⟩ :=
  ⟨C2_run_determinism.1 scC3 200 (runEngine scC3 200) (runEngine scC3 200)
      rfl rfl,
    C2_run_determinism.2
      [⟨5, 1, 2, ProcK.amb "AMB1" AmbPhase.poll⟩, ⟨5, 1, 1, ProcK.demand []⟩]
      [⟨5, 1, 1, ProcK.demand []⟩, ⟨5, 1, 2, ProcK.amb "AMB1" AmbPhase.poll⟩]
      (by decide) (by decide)
      ⟨5, 1, 1, ProcK.demand []⟩ [⟨5, 1, 2, ProcK.amb "AMB1" AmbPhase.poll⟩]
      ⟨5, 1, 1, ProcK.demand []⟩ [⟨5, 1, 2, ProcK.amb "AMB1" AmbPhase.poll⟩]
      (by with_unfolding_all decide) (by with_unfolding_all decide)⟩


/-- C3: there is no event-count safety valve.  The embedded engine run on
`scC3` logs far more than a cap of 3 events, yet stops only because the
clock reached the configured duration (`StopReason.reachedUntil`), ends at
exactly `durationMins scC3`, and its terminal event is the ordinary
`simulation_ended` record — no distinct early-termination marker exists.
(The engine config carries no `max_events` field at all: `MConfig`, like
`SimulationConfig` in `models/scenario.py`, has only duration and seed, and
`run` (engine.py 140-167) never counts events.) -/
theorem C3_no_event_cap :
    3 < (runEngine scC3 200).log.length ∧
    (runEngine scC3 200).reason = StopReason.reachedUntil ∧
    (runEngine scC3 200).core.now = durationMins scC3 ∧
    (runEngine scC3 200).log.getLast? =
      some ⟨durationMins scC3, "simulation_ended", "SYSTEM", none⟩ := by
  with_unfolding_all decide

/-- C4: the repair duration used by `_repair_process` is the constant 60:
`hasattr(node.properties, "repair_time_mins")` is false for every node (the
pydantic model declares no such field), so the configured per-class repair
times are ignored — the workshop configured with a 90-minute medium repair
still gets 60. -/
theorem C4_repair_time_ignores_config :
    nodePropertiesHasAttrRepairTimeMins = false ∧
    (∀ props : NodePropertiesE, repairTimeOfNode props = 60) ∧
    configuredRepairTime workshopProps "medium" = some 90 ∧
    repairTimeOfNode workshopProps ≠ 90 := by
  refine ⟨rfl, fun _ => rfl, rfl, ?_⟩
  norm_num [repairTimeOfNode]

end PjOgun
